import Mathlib

/-!
Shallow embedding of the kyverno-artifact-watcher reconciliation loop
(`src/main.go`) and proofs about the claims of its specification.

Modelling conventions:
* Go strings are Lean `String`s; helper functions that need structural
  proofs are implemented over `List Char` with `String` wrappers.
* Filesystem and network effects are passed in as explicit oracle
  arguments (results of the pull step, apply step, marker read, ...),
  and each loop iteration returns a trace recording the calls it made
  together with the resulting marker state.
* Machine integers are modelled as `Int` (the watcher never exercises
  overflow), timestamps as `Int` (only their order matters).
-/

namespace KyvernoWatcher

/-! ### Go string helpers -/

/-- The character class accepted by Go's `unicode.IsSpace`
(used by `strings.TrimSpace` in `watchLoop`). -/
def isGoSpace (c : Char) : Bool :=
  c = ' ' || c = '\t' || c = '\n' || c = Char.ofNat 11 || c = Char.ofNat 12 ||
  c = '\r' || c = Char.ofNat 0x85 || c = Char.ofNat 0xA0 ||
  c = Char.ofNat 0x1680 || (0x2000 ≤ c.toNat && c.toNat ≤ 0x200A) ||
  c = Char.ofNat 0x2028 || c = Char.ofNat 0x2029 || c = Char.ofNat 0x202F ||
  c = Char.ofNat 0x205F || c = Char.ofNat 0x3000

/-- `strings.TrimSpace` on a character list: drop the leading and trailing
runs of whitespace. -/
def goTrimSpaceList (s : List Char) : List Char :=
  ((s.dropWhile isGoSpace).reverse.dropWhile isGoSpace).reverse

/-- `strings.TrimSpace` (src/main.go line 244). -/
def goTrimSpace (s : String) : String :=
  String.mk (goTrimSpaceList s.toList)

/-- `strings.Split` by a one-character separator, on character lists.
Matches Go semantics: the result always has `count sep s + 1` pieces. -/
def goSplitList (sep : Char) : List Char → List (List Char)
  | [] => [[]]
  | c :: cs =>
    match goSplitList sep cs with
    | [] => [[]]
    | h :: t => if c = sep then [] :: h :: t else (c :: h) :: t

/-- `strings.Split(s, sep)` for a one-character separator. -/
def goSplit (sep : Char) (s : String) : List String :=
  (goSplitList sep s.toList).map String.mk

/-- `sanitizePath` (src/main.go lines 650-654): replace every `:` and `/`
by `_`. -/
def sanitizePath (s : String) : String :=
  String.mk (s.toList.map fun c => if c = ':' then '_' else if c = '/' then '_' else c)

/-! ### The reconciliation loop (`watchLoop`, src/main.go lines 219-267) -/

/-- The marker value `watchLoop` compares against: the marker file content
(empty when the file is absent or unreadable), trimmed of surrounding
whitespace (src/main.go lines 243-244). -/
def readPrevTag (marker : Option String) : String :=
  goTrimSpace (marker.getD "")

/-- The change test of src/main.go line 246: the freshly resolved version
differs from the trimmed previous marker. -/
def versionChanged (latest : String) (marker : Option String) : Bool :=
  latest != readPrevTag marker

/-- Version resolution in artifactory (direct-reference) mode
(src/main.go lines 233-241): split the configured image base on `:`;
fewer than two pieces is a configuration error, otherwise the resolved
version is the last piece. -/
def artifactoryResolve (imageBase : String) : Except String String :=
  let parts := goSplit ':' imageBase
  if parts.length < 2 then
    .error "IMAGE_BASE for artifactory must include a tag (e.g., registry/path:tag)"
  else
    .ok (parts.getLastD "")

/-- Observable outcome of one `watchLoop` iteration: its return value, the
marker file content afterwards, and the pull / apply / marker-write calls
it performed, in order, with their arguments. -/
structure IterTrace where
  result : Except String Unit
  marker : Option String
  pullCalls : List (String × String)
  applyCalls : List String
  writeCalls : List String
  deriving Repr

/-- The changed/unchanged branch of `watchLoop` (src/main.go lines
243-264), parameterised by the outcomes of the pull step, the apply step
and the marker write.  On the changed branch: pull, then apply, then
write the marker; each failure aborts the iteration with an error.  The
marker write is modelled as atomic (failure leaves the old content). -/
def watchBody (latest : String) (pull : String → String → Except String Unit)
    (applyM : String → Except String Unit) (writeOk : Bool)
    (marker : Option String) : IterTrace :=
  if versionChanged latest marker then
    let destDir := "/tmp/image-" ++ sanitizePath latest
    match pull latest destDir with
    | .error e =>
      { result := .error ("pull failed: " ++ e), marker := marker,
        pullCalls := [(latest, destDir)], applyCalls := [], writeCalls := [] }
    | .ok _ =>
      match applyM destDir with
      | .error e =>
        { result := .error ("apply manifests failed: " ++ e), marker := marker,
          pullCalls := [(latest, destDir)], applyCalls := [destDir], writeCalls := [] }
      | .ok _ =>
        if writeOk then
          { result := .ok (), marker := some latest,
            pullCalls := [(latest, destDir)], applyCalls := [destDir],
            writeCalls := [latest] }
        else
          { result := .error "failed to write last file", marker := marker,
            pullCalls := [(latest, destDir)], applyCalls := [destDir],
            writeCalls := [latest] }
  else
    { result := .ok (), marker := marker,
      pullCalls := [], applyCalls := [], writeCalls := [] }

/-- One iteration of `watchLoop` (src/main.go lines 219-267).
`resolveGH` is the outcome of `getLatestTagOrDigest` in github mode
(an error, or a version string, possibly empty when the package has no
versions); in any other provider mode the version is resolved from the
image base by `artifactoryResolve`. -/
def watchLoop (provider imageBase : String)
    (resolveGH : Except String String)
    (pull : String → String → Except String Unit)
    (applyM : String → Except String Unit) (writeOk : Bool)
    (marker : Option String) : IterTrace :=
  if provider = "github" then
    match resolveGH with
    | .error e =>
      { result := .error ("could not determine latest tag/digest: " ++ e),
        marker := marker, pullCalls := [], applyCalls := [], writeCalls := [] }
    | .ok latest =>
      if latest = "" then
        { result := .ok (), marker := marker,
          pullCalls := [], applyCalls := [], writeCalls := [] }
      else
        watchBody latest pull applyM writeOk marker
  else
    match artifactoryResolve imageBase with
    | .error e =>
      { result := .error e, marker := marker,
        pullCalls := [], applyCalls := [], writeCalls := [] }
    | .ok latest =>
      watchBody latest pull applyM writeOk marker

/-! ### GitHub version resolution (`getLatestTagOrDigest`, src/main.go 317-341) -/

/-- One entry of the GitHub package-versions API response, as decoded in
src/main.go lines 77-85.  Timestamps are modelled by their order only. -/
structure GitHubPackageVersion where
  id : Int
  updatedAt : Int
  tags : List String
  deriving Repr, DecidableEq

/-- The selection loop of src/main.go lines 326-332: start from the first
entry and replace it whenever a strictly later `updatedAt` is seen
(`time.After` is a strict comparison, so ties keep the earlier entry). -/
def selectLatest : List GitHubPackageVersion → Option GitHubPackageVersion
  | [] => none
  | v0 :: rest =>
    some ((v0 :: rest).foldl
      (fun latest v => if latest.updatedAt < v.updatedAt then v else latest) v0)

/-- The pure tail of `getLatestTagOrDigest` (src/main.go lines 322-341),
given the successfully decoded version list: empty result on zero
versions, else the first tag of the selected entry, falling back to
`version-id-<id>`. -/
def getLatestTagOrDigest (versions : List GitHubPackageVersion) : String :=
  match selectLatest versions with
  | none => ""
  | some latest =>
    match latest.tags with
    | t :: _ => t
    | [] => "version-id-" ++ toString latest.id

/-- The specification's wording for the selection rule: the first entry in
original order that carries the maximum update timestamp. -/
def specSelectLatest (versions : List GitHubPackageVersion) :
    Option GitHubPackageVersion :=
  versions.find? (fun v => versions.all (fun w => w.updatedAt ≤ v.updatedAt))

/-! ### File enumeration and apply (`findYAMLFiles`, `applyManifestsReal`,
src/main.go 603-648) -/

/-- One entry seen by the recursive directory walk. -/
structure FileEntry where
  path : String
  isDir : Bool
  deriving Repr, DecidableEq

/-- The characters of `s` after the last occurrence of `sep`
(`s` itself when `sep` does not occur). -/
def afterLastSep (sep : Char) (s : List Char) : List Char :=
  (s.reverse.takeWhile (fun c => c ≠ sep)).reverse

/-- `filepath.Ext` (used in src/main.go line 640): the suffix starting at
the final dot of the final path element, empty when there is no dot. -/
def filepathExt (path : String) : String :=
  let base := afterLastSep '/' path.toList
  if base.contains '.' then String.mk ('.' :: afterLastSep '.' base) else ""

/-- The extension test of src/main.go lines 640-641: lower-cased extension
equals `.yaml` or `.yml`. -/
def hasYAMLExt (path : String) : Bool :=
  let ext := String.mk ((filepathExt path).toList.map Char.toLower)
  ext = ".yaml" || ext = ".yml"

/-- `findYAMLFiles` (src/main.go lines 633-648) on the walked entries:
collect every non-directory path with a recognized extension. -/
def findYAMLFiles (entries : List FileEntry) : List String :=
  entries.filterMap fun e =>
    if !e.isDir && hasYAMLExt e.path then some e.path else none

/-- The per-file loop of `applyManifestsReal` (src/main.go lines 617-628):
invoke the apply tool on every file in order, record each exit status,
never stop early and never fail. -/
def applyLoop (exitCode : String → Int) : List String → List (String × Int)
  | [] => []
  | f :: rest => (f, exitCode f) :: applyLoop exitCode rest

/-- `applyManifestsReal` (src/main.go lines 603-631): `walk` is the
outcome of the directory walk (an error, or the entries seen), `exitCode`
the exit status the external tool returns for a given file.  Returns the
call's result together with the list of tool invocations made. -/
def applyManifestsReal (walk : Except String (List FileEntry))
    (exitCode : String → Int) : Except String Unit × List (String × Int) :=
  match walk with
  | .error e => (.error e, [])
  | .ok entries =>
    let files := findYAMLFiles entries
    if files.isEmpty then (.ok (), [])
    else (.ok (), applyLoop exitCode files)

/-! ### Pre-pull destination setup (`pullImageToDirReal`, src/main.go 347-353) -/

/-- The destination-directory setup at the start of `pullImageToDirReal`
(src/main.go lines 347-353): `os.RemoveAll` whose failure is only logged,
then `os.MkdirAll` whose failure aborts.  `existingFiles` is the
directory's content beforehand ( `[]` when it does not exist); the result
is its content when the pull proceeds. -/
def prePullSetup (existingFiles : List String) (removeOk mkdirOk : Bool) :
    Except String (List String) :=
  let afterRemove := if removeOk then [] else existingFiles
  if mkdirOk then .ok afterRemove else .error "mkdir failed"

/-! ### Poll-interval parsing (`getEnvAsIntOrDefault`, src/main.go 663-671) -/

/-- The `fmt` scanner's whitespace table (`space` in `fmt/scan.go`):
0x09-0x0D, the space character, and the Unicode space characters. -/
def isScanSpace (c : Char) : Bool :=
  (0x09 ≤ c.toNat && c.toNat ≤ 0x0D) || c.toNat = 0x20 || c.toNat = 0x85 ||
  c.toNat = 0xA0 || c.toNat = 0x1680 ||
  (0x2000 ≤ c.toNat && c.toNat ≤ 0x200A) ||
  c.toNat = 0x2028 || c.toNat = 0x2029 || c.toNat = 0x202F ||
  c.toNat = 0x205F || c.toNat = 0x3000

/-- `ss.SkipSpace` as run by `Sscanf` before a `%d` item: whitespace is
skipped, but a newline is a scan error (`Sscanf` requires newlines in
the input to match the format; `nlIsSpace` is false).  A lone carriage
return is skipped as whitespace; a `\r\n` pair hits the newline error
once the `\r` is consumed. -/
def scanSkipSpace : List Char → Option (List Char)
  | [] => some []
  | c :: cs =>
    if c = '\n' then none
    else if isScanSpace c then scanSkipSpace cs
    else some (c :: cs)

/-- Value of a decimal digit run. -/
def digitsVal (ds : List Char) : Int :=
  ds.foldl (fun acc d => acc * 10 + ((d.toNat - '0'.toNat : Nat) : Int)) 0

/-- `fmt.Sscanf(value, "%d", &intVal)` with `intVal : int` on a character
list: skip leading scanner whitespace (a newline fails the scan), read
an optionally signed run of decimal digits, ignore whatever follows;
`none` when no digit can be read, and also when the signed value
overflows a 64-bit `int` (`strconv.ParseInt` range error, which makes
the scan fail). -/
def sscanfIntList (cs : List Char) : Option Int :=
  match scanSkipSpace cs with
  | none => none
  | some rest =>
    match rest with
    | '-' :: rest2 =>
      let ds := rest2.takeWhile Char.isDigit
      if ds.isEmpty then none
      else if digitsVal ds ≤ 9223372036854775808 then some (-(digitsVal ds))
      else none
    | '+' :: rest2 =>
      let ds := rest2.takeWhile Char.isDigit
      if ds.isEmpty then none
      else if digitsVal ds ≤ 9223372036854775807 then some (digitsVal ds)
      else none
    | rest2 =>
      let ds := rest2.takeWhile Char.isDigit
      if ds.isEmpty then none
      else if digitsVal ds ≤ 9223372036854775807 then some (digitsVal ds)
      else none

/-- `fmt.Sscanf(value, "%d", &intVal)` on a string. -/
def sscanfInt (s : String) : Option Int := sscanfIntList s.toList

/-- `getEnvAsIntOrDefault` (src/main.go lines 663-671); `value` is the raw
environment value, `""` when the key is absent (Go `os.Getenv`). -/
def getEnvAsIntOrDefault (value : String) (defaultValue : Int) : Int :=
  if value ≠ "" then
    match sscanfInt value with
    | some n => n
    | none => defaultValue
  else defaultValue

/-! ### The document annotator (`addLabelsToYAML`, src/main.go 481-503)

`sigs.k8s.io/yaml` converts YAML to JSON and decodes with
`encoding/json`, so a document is modelled as a JSON value.  Objects are
association lists; Go dedups keys into unordered maps and sorts keys on
output, so key order (immaterial to every claim, and to the spec, which
declares insertion order irrelevant) is abstracted: parsing keeps list
order, serialization emits it back. -/

/-- A JSON value (the image of a YAML document under the YAML-to-JSON
conversion performed by `sigs.k8s.io/yaml`). -/
inductive JVal where
  | null
  | bool (b : Bool)
  | num (n : Int)
  | str (s : String)
  | arr (xs : List JVal)
  | obj (fields : List (String × JVal))
  deriving Repr

instance : Inhabited JVal := ⟨JVal.null⟩

/-- Field lookup in a decoded JSON object; with duplicate keys the last
occurrence wins, as in `encoding/json`. -/
def getField : List (String × JVal) → String → Option JVal
  | [], _ => none
  | (k, v) :: rest, key =>
    match getField rest key with
    | some w => some w
    | none => if k = key then some v else none

/-- Go map assignment `m[k] = v` on an association list: overwrite every
binding of `k`, or append the new binding. -/
def insertKV (m : List (String × String)) (k v : String) :
    List (String × String) :=
  if m.any (fun p => p.1 = k) then
    m.map (fun p => if p.1 = k then (k, v) else p)
  else
    m ++ [(k, v)]

/-- `metadata` of `Manifest` (src/main.go lines 56-60).  `labels` is
`none` for Go's nil map (field absent or null) — the annotator tests for
nil explicitly. -/
structure ManifestMetadata where
  name : String
  namespace_ : String
  labels : Option (List (String × String))
  deriving Repr

instance : Inhabited ManifestMetadata := ⟨⟨"", "", none⟩⟩

/-- `Manifest` (src/main.go lines 49-54).  The opaque `spec` payload is
kept verbatim; Go's nil map and empty map both serialize to an omitted
field and decode back to nil, so both are modelled as `[]`. -/
structure Manifest where
  apiVersion : String
  kind : String
  metadata : ManifestMetadata
  spec : List (String × JVal)
  deriving Repr

instance : Inhabited Manifest := ⟨⟨"", "", default, []⟩⟩

/-- Decoding a JSON value into a Go `string` field: absent or `null`
leaves the zero value; any non-string value is a decode error. -/
def asStringField : Option JVal → Except String String
  | none => .ok ""
  | some .null => .ok ""
  | some (.str s) => .ok s
  | some _ => .error "cannot unmarshal into field of type string"

/-- Decoding a JSON object into `map[string]string`, in field order,
duplicate keys last-wins; `null` values decode to the zero string; any
other non-string value is a decode error. -/
def buildLabels : List (String × JVal) → List (String × String) →
    Except String (List (String × String))
  | [], acc => .ok acc
  | (k, .str v) :: rest, acc => buildLabels rest (insertKV acc k v)
  | (k, .null) :: rest, acc => buildLabels rest (insertKV acc k "")
  | _, _ => .error "cannot unmarshal into map[string]string"

/-- Decoding the `labels` field into Go's `map[string]string`: absent or
`null` decodes to the nil map. -/
def parseLabels : Option JVal → Except String (Option (List (String × String)))
  | none => .ok none
  | some .null => .ok none
  | some (.obj lfs) =>
    match buildLabels lfs [] with
    | .error e => .error e
    | .ok ls => .ok (some ls)
  | some _ => .error "cannot unmarshal into map[string]string"

/-- Decoding the `metadata` field into `ManifestMetadata`. -/
def parseMetadata : Option JVal → Except String ManifestMetadata
  | none => .ok default
  | some .null => .ok default
  | some (.obj fs) =>
    match asStringField (getField fs "name") with
    | .error e => .error e
    | .ok name =>
      match asStringField (getField fs "namespace") with
      | .error e => .error e
      | .ok ns =>
        match parseLabels (getField fs "labels") with
        | .error e => .error e
        | .ok labels => .ok ⟨name, ns, labels⟩
  | some _ => .error "cannot unmarshal into ManifestMetadata"

/-- Decoding the opaque `spec` field (`map[string]interface\x7b\x7d`):
kept verbatim; absent or `null` decodes to the nil map. -/
def parseSpec : Option JVal → Except String (List (String × JVal))
  | none => .ok []
  | some .null => .ok []
  | some (.obj fs) => .ok fs
  | some _ => .error "cannot unmarshal into map[string]interface"

/-- `yaml.Unmarshal(yamlData, &manifest)` (src/main.go line 483): decode
the document into the `Manifest` struct.  Fields outside
apiVersion/kind/metadata/spec have nowhere to go and are dropped;
`null` decodes to the zero `Manifest`. -/
def parseManifest : JVal → Except String Manifest
  | .null => .ok default
  | .obj fs =>
    match asStringField (getField fs "apiVersion") with
    | .error e => .error e
    | .ok av =>
      match asStringField (getField fs "kind") with
      | .error e => .error e
      | .ok kd =>
        match parseMetadata (getField fs "metadata") with
        | .error e => .error e
        | .ok md =>
          match parseSpec (getField fs "spec") with
          | .error e => .error e
          | .ok sp => .ok ⟨av, kd, md, sp⟩
  | _ => .error "cannot unmarshal into Manifest"

/-- `yaml.Marshal` of `ManifestMetadata`: `name` always, `namespace` and
`labels` under `omitempty` (omitted when zero — empty string, nil or
empty map). -/
def serializeMetadata (md : ManifestMetadata) : JVal :=
  .obj ([("name", .str md.name)]
    ++ (if md.namespace_ = "" then [] else [("namespace", .str md.namespace_)])
    ++ (match md.labels with
        | none => []
        | some ls =>
          if ls.isEmpty then []
          else [("labels", .obj (ls.map fun p => (p.1, .str p.2)))]))

/-- `yaml.Marshal(&manifest)` (src/main.go line 497): emit the four
struct fields, `spec` under `omitempty`. -/
def serializeManifest (m : Manifest) : JVal :=
  .obj ([("apiVersion", .str m.apiVersion), ("kind", .str m.kind),
         ("metadata", serializeMetadata m.metadata)]
    ++ (if m.spec.isEmpty then [] else [("spec", .obj m.spec)]))

/-- `addLabelsToYAML` (src/main.go lines 481-503): decode, initialize the
label map when nil, set the two provenance labels, re-encode. -/
def addLabelsToYAML (doc : JVal) (tag : String) : Except String JVal :=
  match parseManifest doc with
  | .error e => .error e
  | .ok m =>
    let labels :=
      match m.metadata.labels with
      | none => []
      | some ls => ls
    let labels :=
      insertKV (insertKV labels "managed-by" "kyverno-watcher") "policy-version" tag
    .ok (serializeManifest
      { m with metadata := { m.metadata with labels := some labels } })

/-! ### Specification-side definitions

These formalise the spec's wording, for comparison with the embedded
code; they are deliberately written from the specification text, not from
the source. -/

/-- Spec wording (C9): a numeric string is an optionally signed non-empty
run of decimal digits. -/
def specIsNumeric (s : String) : Bool :=
  match s.toList with
  | [] => false
  | '-' :: ds => !ds.isEmpty && ds.all Char.isDigit
  | '+' :: ds => !ds.isEmpty && ds.all Char.isDigit
  | ds => ds.all Char.isDigit

/-- Spec wording (C9): the integer denoted by a numeric string. -/
def specNumericVal (s : String) : Int :=
  match s.toList with
  | '-' :: ds => -(digitsVal ds)
  | '+' :: ds => digitsVal ds
  | ds => digitsVal ds

/-- A string consisting solely of whitespace (C10's "surrounding
whitespace"). -/
def isAllSpace (s : String) : Bool :=
  s.toList.all isGoSpace

/-- Spec wording (C5): an image reference carries a tag when its last
slash-separated segment contains a colon. -/
def specHasTag (ref : String) : Bool :=
  (afterLastSep '/' ref.toList).contains ':'

/-- Spec wording (C5): the tag segment of an image reference — what
follows the last colon of the last slash-separated segment. -/
def specTagOf (ref : String) : String :=
  String.mk (afterLastSep ':' (afterLastSep '/' ref.toList))

/-! ### Observation helpers -/

/-- Top-level field of a document (`none` when the document is not an
object or lacks the field). -/
def topField (doc : JVal) (key : String) : Option JVal :=
  match doc with
  | .obj fs => getField fs key
  | _ => none

/-- Lookup in a label mapping (first binding wins; parsed mappings have
unique keys). -/
def lookupLabel (ls : List (String × String)) (k : String) : Option String :=
  (ls.find? fun p => p.1 == k).map Prod.snd

/-- A concrete policy document: the usual four fields, an existing
`app: x` label, and an unknown top-level field `extra`. -/
def exampleDoc : JVal :=
  .obj [("apiVersion", .str "kyverno.io/v1"), ("kind", .str "ClusterPolicy"),
    ("metadata", .obj [("name", .str "p"), ("labels", .obj [("app", .str "x")])]),
    ("spec", .obj [("rules", .arr [])]), ("extra", .str "keepme")]

/-- The annotator's output for `exampleDoc` at version `v2`. -/
def exampleAnnotated : JVal :=
  .obj [("apiVersion", .str "kyverno.io/v1"), ("kind", .str "ClusterPolicy"),
    ("metadata", .obj [("name", .str "p"),
      ("labels", .obj [("app", .str "x"),
        ("managed-by", .str "kyverno-watcher"),
        ("policy-version", .str "v2")])]),
    ("spec", .obj [("rules", .arr [])])]

/-! ## Helper lemmas -/

theorem takeWhile_of_all {p : Char → Bool} :
    ∀ {l : List Char}, (∀ a ∈ l, p a = true) → l.takeWhile p = l := by
  intro l h
  induction l with
  | nil => rfl
  | cons c cs ih =>
    simp only [List.takeWhile_cons, h c (by simp)]
    simp [ih fun a ha => h a (by simp [ha])]

theorem dropWhile_of_all_append {p : Char → Bool} :
    ∀ {l₁ : List Char} (l₂ : List Char), (∀ a ∈ l₁, p a = true) →
      (l₁ ++ l₂).dropWhile p = l₂.dropWhile p := by
  intro l₁ l₂ h
  induction l₁ with
  | nil => rfl
  | cons c cs ih =>
    simp only [List.cons_append, List.dropWhile_cons, h c (by simp)]
    simp [ih fun a ha => h a (by simp [ha])]

theorem digit_toNat {c : Char} (h : c.isDigit = true) :
    48 ≤ c.toNat ∧ c.toNat ≤ 57 := by
  simp only [Char.isDigit, Bool.and_eq_true, decide_eq_true_eq, ge_iff_le] at h
  obtain ⟨h1, h2⟩ := h
  rw [UInt32.le_def, BitVec.le_def] at h1 h2
  exact ⟨h1, h2⟩

theorem digit_not_scanSpace {c : Char} (h : c.isDigit = true) :
    isScanSpace c = false := by
  obtain ⟨h1, h2⟩ := digit_toNat h
  by_contra hc
  rw [Bool.not_eq_false] at hc
  unfold isScanSpace at hc
  simp only [Bool.or_eq_true, Bool.and_eq_true, decide_eq_true_eq] at hc
  omega

theorem digit_ne_newline {c : Char} (h : c.isDigit = true) : c ≠ '\n' := by
  intro hc
  subst hc
  simp [Char.isDigit] at h

theorem scanSkipSpace_not_space {c : Char} (cs : List Char)
    (hn : c ≠ '\n') (hs : isScanSpace c = false) :
    scanSkipSpace (c :: cs) = some (c :: cs) := by
  unfold scanSkipSpace
  rw [if_neg hn, hs]
  simp

theorem digit_ne_minus {c : Char} (h : c.isDigit = true) : c ≠ '-' := by
  intro hc; subst hc; simp [Char.isDigit] at h

theorem digit_ne_plus {c : Char} (h : c.isDigit = true) : c ≠ '+' := by
  intro hc; subst hc; simp [Char.isDigit] at h

theorem sscanfIntList_digits {ds : List Char} (hne : ds ≠ [])
    (hd : ∀ a ∈ ds, a.isDigit = true)
    (hr : digitsVal ds ≤ 9223372036854775807) :
    sscanfIntList ds = some (digitsVal ds) := by
  cases ds with
  | nil => exact absurd rfl hne
  | cons d rest =>
    have hdd : d.isDigit = true := hd d (by simp)
    unfold sscanfIntList
    rw [scanSkipSpace_not_space rest (digit_ne_newline hdd) (digit_not_scanSpace hdd)]
    dsimp only
    split
    · rename_i heq
      exact absurd (List.head_eq_of_cons_eq heq) (digit_ne_minus hdd)
    · rename_i heq
      exact absurd (List.head_eq_of_cons_eq heq) (digit_ne_plus hdd)
    · rw [takeWhile_of_all hd]
      simp [hr]

theorem string_ne_empty_of_toList {s : String} (h : s.toList ≠ []) : s ≠ "" := by
  intro he; subst he; exact h rfl

theorem sscanfIntList_neg {ds : List Char} (hne : ds ≠ [])
    (hd : ∀ a ∈ ds, a.isDigit = true)
    (hr : digitsVal ds ≤ 9223372036854775808) :
    sscanfIntList ('-' :: ds) = some (-(digitsVal ds)) := by
  cases ds with
  | nil => exact absurd rfl hne
  | cons d rest =>
    unfold sscanfIntList
    rw [show scanSkipSpace ('-' :: d :: rest) = some ('-' :: d :: rest) from rfl]
    dsimp only
    split
    · rename_i rest2 heq
      injection heq with h1 h2
      subst h2
      rw [takeWhile_of_all hd]
      simp [hr]
    · rename_i rest2 heq
      injection heq with h1 h2
      exact absurd h1 (by decide)
    · rename_i hm hp
      exact absurd rfl (hm (d :: rest))

theorem sscanfIntList_pos {ds : List Char} (hne : ds ≠ [])
    (hd : ∀ a ∈ ds, a.isDigit = true)
    (hr : digitsVal ds ≤ 9223372036854775807) :
    sscanfIntList ('+' :: ds) = some (digitsVal ds) := by
  cases ds with
  | nil => exact absurd rfl hne
  | cons d rest =>
    unfold sscanfIntList
    rw [show scanSkipSpace ('+' :: d :: rest) = some ('+' :: d :: rest) from rfl]
    dsimp only
    split
    · rename_i rest2 heq
      injection heq with h1 h2
      exact absurd h1 (by decide)
    · rename_i rest2 heq
      injection heq with h1 h2
      subst h2
      rw [takeWhile_of_all hd]
      simp [hr]
    · rename_i hm hp
      exact absurd rfl (hp (d :: rest))

/-! ## Claim C9 — poll-interval parsing -/

/-- C9 (as stated) is false: the claim demands the default 30 for every
non-numeric value, but `fmt.Sscanf` with `%d` accepts a numeric prefix
and ignores trailing characters, so the non-numeric value `"7abc"` yields
7, not 30. -/
theorem claim_C9_counterexample :
    specIsNumeric "7abc" = false ∧
    getEnvAsIntOrDefault "7abc" 30 = 7 ∧ (7 : Int) ≠ 30 := by
  refine ⟨by decide, by decide, by decide⟩

/-- C9 (amended): a numeric value whose integer fits a signed 64-bit
`int` is parsed to that integer; an absent value falls back to the
default 30; a value that `Sscanf` cannot scan a leading integer from
falls back to the default 30 — including a numeric value that overflows
`int`, while scanner whitespace such as a lone carriage return before
the digits is skipped.  (A value with a numeric prefix followed by other
characters yields the prefix's value, not the default.) -/
theorem claim_C9_theorem :
    (∀ s : String, specIsNumeric s = true →
      -9223372036854775808 ≤ specNumericVal s →
      specNumericVal s ≤ 9223372036854775807 →
      getEnvAsIntOrDefault s 30 = specNumericVal s) ∧
    getEnvAsIntOrDefault "" 30 = 30 ∧
    (∀ s : String, sscanfInt s = none → getEnvAsIntOrDefault s 30 = 30) ∧
    getEnvAsIntOrDefault "99999999999999999999" 30 = 30 ∧
    getEnvAsIntOrDefault "\r42" 30 = 42 := by
  refine ⟨?_, rfl, ?_, by decide, by decide⟩
  · intro s hnum hr1 hr2
    have hnil : s.toList ≠ [] := by
      intro hc
      unfold specIsNumeric at hnum
      rw [hc] at hnum
      exact absurd hnum (by simp)
    have hlist : sscanfIntList s.toList = some (specNumericVal s) := by
      rcases hsl : s.toList with _ | ⟨c, cs⟩
      · exact absurd hsl hnil
      · by_cases hcm : c = '-'
        · subst hcm
          have hval : specNumericVal s = -(digitsVal cs) := by
            unfold specNumericVal
            rw [hsl]
            rfl
          have hnum2 : cs ≠ [] ∧ ∀ a ∈ cs, a.isDigit = true := by
            unfold specIsNumeric at hnum
            rw [hsl] at hnum
            split at hnum
            · rename_i heq
              exact absurd heq (by simp)
            · rename_i ds heq
              injection heq with h1 h2
              subst h2
              simp only [Bool.and_eq_true, Bool.not_eq_true',
                List.all_eq_true] at hnum
              refine ⟨?_, hnum.2⟩
              intro hc
              subst hc
              simp at hnum
            · rename_i ds heq
              injection heq with h1 h2
              exact absurd h1 (by decide)
            · rename_i h0 hm hp
              exact absurd rfl (hm cs)
          rw [hval]
          rw [hval] at hr1
          exact sscanfIntList_neg hnum2.1 hnum2.2 (by omega)
        · by_cases hcp : c = '+'
          · subst hcp
            have hval : specNumericVal s = digitsVal cs := by
              unfold specNumericVal
              rw [hsl]
              rfl
            have hnum2 : cs ≠ [] ∧ ∀ a ∈ cs, a.isDigit = true := by
              unfold specIsNumeric at hnum
              rw [hsl] at hnum
              split at hnum
              · rename_i heq
                exact absurd heq (by simp)
              · rename_i ds heq
                injection heq with h1 h2
                exact absurd h1 (by decide)
              · rename_i ds heq
                injection heq with h1 h2
                subst h2
                simp only [Bool.and_eq_true, Bool.not_eq_true',
                  List.all_eq_true] at hnum
                refine ⟨?_, hnum.2⟩
                intro hc
                subst hc
                simp at hnum
              · rename_i h0 hm hp
                exact absurd rfl (hp cs)
            rw [hval]
            rw [hval] at hr2
            exact sscanfIntList_pos hnum2.1 hnum2.2 (by omega)
          · have hval : specNumericVal s = digitsVal (c :: cs) := by
              unfold specNumericVal
              rw [hsl]
              split
              · rename_i ds heq
                exact absurd (List.head_eq_of_cons_eq heq) hcm
              · rename_i ds heq
                exact absurd (List.head_eq_of_cons_eq heq) hcp
              · rfl
            have hnum2 : ∀ a ∈ (c :: cs), a.isDigit = true := by
              unfold specIsNumeric at hnum
              rw [hsl] at hnum
              split at hnum
              · rename_i heq
                exact absurd heq (by simp)
              · rename_i ds heq
                exact absurd (List.head_eq_of_cons_eq heq) hcm
              · rename_i ds heq
                exact absurd (List.head_eq_of_cons_eq heq) hcp
              · simp only [List.all_eq_true] at hnum
                exact hnum
            rw [hval]
            rw [hval] at hr2
            exact sscanfIntList_digits (by simp) hnum2 (by omega)
    have hs : s ≠ "" := string_ne_empty_of_toList hnil
    unfold getEnvAsIntOrDefault
    rw [if_pos hs]
    unfold sscanfInt
    rw [hlist]
  · intro s hnone
    unfold getEnvAsIntOrDefault
    by_cases hs : s = ""
    · rw [if_neg (by simp [hs])]
    · rw [if_pos hs, hnone]

/-- C9 witness: the numeric value `"42"` configures a 42-second interval. -/
theorem claim_C9_witness : getEnvAsIntOrDefault "42" 30 = 42 :=
  (claim_C9_theorem.1 "42" (by decide) (by decide) (by decide)).trans (by decide)

/-! ## Claim C6 — pre-pull destination setup -/

/-- C6 (as stated) is false: the destination directory is not always
empty when the pull proceeds.  `os.RemoveAll`'s failure is only logged
(src/main.go lines 348-350), so when removal fails the setup still
returns success and the stale file `"stale.yaml"` remains. -/
theorem claim_C6_counterexample :
    prePullSetup ["stale.yaml"] false true = .ok ["stale.yaml"] ∧
    ["stale.yaml"] ≠ ([] : List String) :=
  ⟨rfl, by decide⟩

/-- C6 (amended): when the removal step succeeds the directory is empty
after the pre-pull setup, whatever it contained before; a failed
directory creation aborts the pull; but a failed removal is only logged
and the pull proceeds with the previous content still in place. -/
theorem claim_C6_theorem :
    (∀ files : List String, prePullSetup files true true = .ok []) ∧
    (∀ (files : List String) (removeOk : Bool),
      prePullSetup files removeOk false = .error "mkdir failed") ∧
    (∀ files : List String, prePullSetup files false true = .ok files) :=
  ⟨fun _ => rfl, fun _ r => by cases r <;> rfl, fun _ => rfl⟩

/-! ## Claim C4 — the apply step -/

theorem applyLoop_map_fst (exitCode : String → Int) :
    ∀ fs : List String, (applyLoop exitCode fs).map Prod.fst = fs := by
  intro fs
  induction fs with
  | nil => rfl
  | cons f rest ih => simp [applyLoop, ih]

/-- C4: the apply step fails only when the directory walk itself fails;
with a successful walk it succeeds regardless of the tool's exit
statuses, invokes the tool exactly once per structured-document file (in
order), and does nothing when there are none. -/
theorem claim_C4_theorem :
    (∀ (e : String) (exitCode : String → Int),
      applyManifestsReal (.error e) exitCode = (.error e, [])) ∧
    (∀ (entries : List FileEntry) (exitCode : String → Int),
      (applyManifestsReal (.ok entries) exitCode).1 = .ok ()) ∧
    (∀ (entries : List FileEntry) (exitCode : String → Int),
      (applyManifestsReal (.ok entries) exitCode).2.map Prod.fst =
        findYAMLFiles entries) ∧
    (∀ (entries : List FileEntry) (exitCode : String → Int),
      findYAMLFiles entries = [] →
        applyManifestsReal (.ok entries) exitCode = (.ok (), [])) := by
  refine ⟨fun _ _ => rfl, ?_, ?_, ?_⟩
  · intro entries exitCode
    unfold applyManifestsReal
    by_cases h : (findYAMLFiles entries).isEmpty <;> simp [h]
  · intro entries exitCode
    unfold applyManifestsReal
    by_cases h : (findYAMLFiles entries).isEmpty
    · simp only [h, if_true]
      simp only [List.isEmpty_iff] at h
      simp [h]
    · simp [h, applyLoop_map_fst]
  · intro entries exitCode h
    unfold applyManifestsReal
    simp [h]

/-- C4 witness: a directory with only non-document files makes the apply
step succeed with no tool invocation. -/
theorem claim_C4_witness :
    applyManifestsReal
      (.ok [⟨"/tmp/image-v1/readme.md", false⟩, ⟨"/tmp/image-v1/sub", true⟩])
      (fun _ => 1) = (.ok (), []) :=
  claim_C4_theorem.2.2.2
    [⟨"/tmp/image-v1/readme.md", false⟩, ⟨"/tmp/image-v1/sub", true⟩]
    (fun _ => 1) (by decide)

/-! ## List helpers for split / trim reasoning -/

theorem mem_of_mem_takeWhile {p : Char → Bool} {a : Char} :
    ∀ {l : List Char}, a ∈ l.takeWhile p → a ∈ l := by
  intro l h
  induction l with
  | nil => simp at h
  | cons c cs ih =>
    rw [List.takeWhile_cons] at h
    by_cases hc : p c = true
    · rw [hc] at h
      simp only [if_true] at h
      rcases List.mem_cons.mp h with h | h
      · simp [h]
      · exact List.mem_cons_of_mem _ (ih h)
    · simp [Bool.not_eq_true] at hc
      rw [hc] at h
      simp at h

theorem takeWhile_append_single_notp {p : Char → Bool} {x : Char}
    (hx : p x = false) : ∀ l : List Char, (l ++ [x]).takeWhile p = l.takeWhile p := by
  intro l
  induction l with
  | nil => simp [List.takeWhile_cons, hx]
  | cons a l ih =>
    simp only [List.cons_append, List.takeWhile_cons]
    by_cases ha : p a = true
    · simp [ha, ih]
    · simp [Bool.not_eq_true] at ha
      simp [ha]

theorem takeWhile_append_of_exists_notp {p : Char → Bool} :
    ∀ {l₁ : List Char} (l₂ : List Char), (∃ a ∈ l₁, p a = false) →
      (l₁ ++ l₂).takeWhile p = l₁.takeWhile p := by
  intro l₁ l₂ h
  induction l₁ with
  | nil => simp at h
  | cons a l ih =>
    simp only [List.cons_append, List.takeWhile_cons]
    by_cases ha : p a = true
    · have : ∃ b ∈ l, p b = false := by
        rcases h with ⟨b, hb, hpb⟩
        rcases List.mem_cons.mp hb with rfl | hb
        · exact absurd ha (by simp [hpb])
        · exact ⟨b, hb, hpb⟩
      simp [ha, ih this]
    · simp [Bool.not_eq_true] at ha
      simp [ha]

theorem dropWhile_nil_of_all {p : Char → Bool} :
    ∀ {l : List Char}, (∀ a ∈ l, p a = true) → l.dropWhile p = [] := by
  intro l h
  induction l with
  | nil => rfl
  | cons c cs ih =>
    rw [List.dropWhile_cons, h c (by simp)]
    simp only [if_true]
    exact ih fun a ha => h a (by simp [ha])

/-! ## `afterLastSep` and `goSplitList` lemmas -/

theorem afterLastSep_cons_self (sep : Char) (cs : List Char) :
    afterLastSep sep (sep :: cs) = afterLastSep sep cs := by
  unfold afterLastSep
  rw [List.reverse_cons, takeWhile_append_single_notp (by simp)]

theorem afterLastSep_of_not_mem {sep : Char} {l : List Char} (h : sep ∉ l) :
    afterLastSep sep l = l := by
  unfold afterLastSep
  rw [takeWhile_of_all, List.reverse_reverse]
  intro a ha
  simp only [decide_eq_true_eq]
  intro hc
  subst hc
  exact h (List.mem_reverse.mp ha)

theorem afterLastSep_append_of_mem {sep : Char} {l₂ : List Char}
    (l₁ : List Char) (h : sep ∈ l₂) :
    afterLastSep sep (l₁ ++ l₂) = afterLastSep sep l₂ := by
  unfold afterLastSep
  rw [List.reverse_append, takeWhile_append_of_exists_notp]
  exact ⟨sep, List.mem_reverse.mpr h, by simp⟩

theorem exists_append_afterLastSep (sep : Char) (l : List Char) :
    ∃ pre, l = pre ++ afterLastSep sep l := by
  refine ⟨((l.reverse.dropWhile fun c => decide (c ≠ sep)).reverse), ?_⟩
  unfold afterLastSep
  rw [← List.reverse_append, List.takeWhile_append_dropWhile, List.reverse_reverse]

theorem goSplitList_ne_nil (sep : Char) : ∀ l : List Char, goSplitList sep l ≠ [] := by
  intro l
  induction l with
  | nil => simp [goSplitList]
  | cons c cs ih =>
    unfold goSplitList
    split
    · simp
    · split <;> simp

theorem length_goSplitList (sep : Char) :
    ∀ l : List Char, (goSplitList sep l).length = l.count sep + 1 := by
  intro l
  induction l with
  | nil => rfl
  | cons c cs ih =>
    simp only [goSplitList]
    cases hsplit : goSplitList sep cs with
    | nil => exact absurd hsplit (goSplitList_ne_nil sep cs)
    | cons h t =>
      rw [hsplit] at ih
      dsimp only
      simp only [List.length_cons] at ih
      by_cases hc : c = sep
      · subst hc
        rw [if_pos rfl, List.count_cons_self]
        simp only [List.length_cons]
        omega
      · rw [if_neg hc, List.count_cons_of_ne (Ne.symm hc)]
        simp only [List.length_cons]
        omega

theorem goSplitList_of_not_mem {sep : Char} :
    ∀ {l : List Char}, sep ∉ l → goSplitList sep l = [l] := by
  intro l h
  induction l with
  | nil => rfl
  | cons c cs ih =>
    unfold goSplitList
    have hcs : sep ∉ cs := fun hc => h (List.mem_cons_of_mem _ hc)
    rw [ih hcs]
    have hc : c ≠ sep := fun hc => h (by simp [hc])
    simp [hc]

theorem getLast?_goSplitList (sep : Char) :
    ∀ l : List Char, (goSplitList sep l).getLast? = some (afterLastSep sep l) := by
  intro l
  induction l with
  | nil => rfl
  | cons c cs ih =>
    unfold goSplitList
    split
    · rename_i heq
      exact absurd heq (goSplitList_ne_nil sep cs)
    · rename_i h t heq
      by_cases hc : c = sep
      · subst hc
        rw [if_pos rfl, List.getLast?_cons_cons, ← heq, ih, afterLastSep_cons_self]
      · rw [if_neg hc]
        cases t with
        | nil =>
          have hcount : cs.count sep + 1 = 1 := by
            rw [← length_goSplitList, heq]
            rfl
          have hnm : sep ∉ cs := by
            rw [← List.count_eq_zero]
            omega
          have : h = cs := by
            have := goSplitList_of_not_mem hnm
            rw [heq] at this
            simp at this
            exact this
          subst this
          rw [afterLastSep_of_not_mem (by simp [Ne.symm hc, hnm])]
          rfl
        | cons t0 ts =>
          rw [List.getLast?_cons_cons]
          have hmem : sep ∈ cs := by
            have hcount := length_goSplitList sep cs
            rw [heq] at hcount
            simp only [List.length_cons] at hcount
            have : 0 < cs.count sep := by omega
            exact List.count_pos_iff.mp this
          have : afterLastSep sep (c :: cs) = afterLastSep sep cs :=
            afterLastSep_append_of_mem [c] hmem
          rw [this, ← ih, heq, List.getLast?_cons_cons]

/-! ## Claim C5 — artifactory (direct-reference) resolution -/

/-- C5 (as stated) is false: a reference whose only colon is a registry
port separator carries no tag, yet resolution succeeds and returns the
text after that colon instead of failing. -/
theorem claim_C5_counterexample :
    specHasTag "reg.example.com:5000/repo" = false ∧
    artifactoryResolve "reg.example.com:5000/repo" = .ok "5000/repo" :=
  ⟨by decide, rfl⟩

/-- C5 (amended): when the reference carries a tag (a colon in its last
slash-separated segment) the resolved version identifier is exactly that
tag; resolution fails with the configuration error exactly when the
reference contains no colon at all (a colon-bearing but tagless
reference, e.g. one whose only colon separates a registry port, resolves
to the text after its last colon instead of failing). -/
theorem claim_C5_theorem :
    (∀ ref : String, specHasTag ref = true →
      artifactoryResolve ref = .ok (specTagOf ref)) ∧
    (∀ ref : String, ref.toList.contains ':' = false →
      artifactoryResolve ref =
        .error "IMAGE_BASE for artifactory must include a tag (e.g., registry/path:tag)") := by
  constructor
  · intro ref htag
    unfold specHasTag at htag
    have hmemseg : ':' ∈ afterLastSep '/' ref.toList := by
      rw [List.contains_eq_any_beq] at htag
      rcases List.any_eq_true.mp htag with ⟨c, hc, hb⟩
      rw [beq_iff_eq] at hb
      rw [← hb] at hc
      exact hc
    have hmem : ':' ∈ ref.toList := by
      obtain ⟨pre, hpre⟩ := exists_append_afterLastSep '/' ref.toList
      rw [hpre]
      exact List.mem_append_right _ hmemseg
    have hcount : 0 < ref.toList.count ':' := List.count_pos_iff.mpr hmem
    have hlen : 2 ≤ (goSplit ':' ref).length := by
      unfold goSplit
      rw [List.length_map, length_goSplitList]
      omega
    unfold artifactoryResolve
    rw [if_neg (by omega)]
    have hlast : (goSplit ':' ref).getLast? =
        some (String.mk (afterLastSep ':' ref.toList)) := by
      unfold goSplit
      rw [List.getLast?_map, getLast?_goSplitList]
      rfl
    have : (goSplit ':' ref).getLastD "" = String.mk (afterLastSep ':' ref.toList) := by
      rw [List.getLastD_eq_getLast?, hlast]
      rfl
    rw [this]
    unfold specTagOf
    obtain ⟨pre, hpre⟩ := exists_append_afterLastSep '/' ref.toList
    have : afterLastSep ':' ref.toList =
        afterLastSep ':' (afterLastSep '/' ref.toList) := by
      conv_lhs => rw [hpre]
      exact afterLastSep_append_of_mem pre hmemseg
    rw [this]
  · intro ref hnc
    have hnm : ':' ∉ ref.toList := by
      intro hm
      rw [List.contains_eq_any_beq] at hnc
      have : (ref.toList.any fun x => ':' == x) = true :=
        List.any_eq_true.mpr ⟨':', hm, by simp⟩
      simp only [this] at hnc
      exact Bool.true_eq_false.mp hnc
    have hcount : ref.toList.count ':' = 0 := List.count_eq_zero.mpr hnm
    unfold artifactoryResolve
    rw [if_pos]
    unfold goSplit
    rw [List.length_map, length_goSplitList, hcount]
    omega

/-- C5 witness: a tagged reference resolves to its tag. -/
theorem claim_C5_witness :
    artifactoryResolve "registry.example.com:5000/team/policies:v1.4.2" =
      .ok "v1.4.2" :=
  (claim_C5_theorem.1 "registry.example.com:5000/team/policies:v1.4.2"
    (by decide)).trans (by rfl)

/-! ## Claim C8 — comparison against an empty marker -/

/-- C8: an empty last-seen marker (absent file) compares as changed for
every non-empty resolved version — so the first observed version takes
the pull branch — while an empty resolved version against the empty
marker compares as unchanged. -/
theorem claim_C8_theorem :
    (∀ v : String, v ≠ "" → versionChanged v none = true) ∧
    versionChanged "" none = false ∧
    (∀ (v ib : String) (pull : String → String → Except String Unit)
        (applyM : String → Except String Unit) (writeOk : Bool), v ≠ "" →
      (watchLoop "github" ib (.ok v) pull applyM writeOk none).pullCalls =
        [(v, "/tmp/image-" ++ sanitizePath v)]) := by
  have hvc : ∀ v : String, v ≠ "" → versionChanged v none = true := by
    intro v hv
    have : readPrevTag none = "" := rfl
    simp [versionChanged, this, hv]
  refine ⟨hvc, rfl, ?_⟩
  intro v ib pull applyM writeOk hv
  unfold watchLoop
  rw [if_pos rfl]
  dsimp only
  rw [if_neg hv]
  unfold watchBody
  rw [hvc v hv]
  simp only [if_true]
  rcases hp : pull v ("/tmp/image-" ++ sanitizePath v) with e | u
  · simp [hp]
  · rcases ha : applyM ("/tmp/image-" ++ sanitizePath v) with e | u
    · simp [hp, ha]
    · cases writeOk <;> simp [hp, ha]

/-- C8 witness: the first observed version `"v1.2.0"` is reported as a
change against the absent marker. -/
theorem claim_C8_witness : versionChanged "v1.2.0" none = true :=
  claim_C8_theorem.1 "v1.2.0" (by decide)

/-! ## Trim lemmas for claim C10 -/

theorem not_space_head_of_dropWhile_self {c : Char} {rest : List Char}
    (h : (c :: rest).dropWhile isGoSpace = c :: rest) : isGoSpace c = false := by
  by_contra hc
  rw [Bool.not_eq_false] at hc
  rw [List.dropWhile_cons, hc] at h
  simp only [if_true] at h
  have hle : (rest.dropWhile isGoSpace).length ≤ rest.length :=
    (List.dropWhile_sublist isGoSpace).length_le
  rw [h] at hle
  simp at hle

theorem dropWhile_eq_self_of_trim {l : List Char}
    (h : goTrimSpaceList l = l) :
    l.dropWhile isGoSpace = l ∧ l.reverse.dropWhile isGoSpace = l.reverse := by
  cases hl : l with
  | nil => simp
  | cons c rest =>
    subst hl
    have hhead : isGoSpace c = false := by
      by_contra hc
      rw [Bool.not_eq_false] at hc
      have hlen : (goTrimSpaceList (c :: rest)).length ≤ rest.length := by
        unfold goTrimSpaceList
        rw [List.dropWhile_cons, hc]
        simp only [if_true]
        calc ((rest.dropWhile isGoSpace).reverse.dropWhile isGoSpace).reverse.length
            = ((rest.dropWhile isGoSpace).reverse.dropWhile isGoSpace).length := by
              rw [List.length_reverse]
          _ ≤ (rest.dropWhile isGoSpace).reverse.length :=
              (List.dropWhile_sublist isGoSpace).length_le
          _ = (rest.dropWhile isGoSpace).length := by rw [List.length_reverse]
          _ ≤ rest.length := (List.dropWhile_sublist isGoSpace).length_le
      rw [h] at hlen
      simp at hlen
    have hdrop : (c :: rest).dropWhile isGoSpace = c :: rest := by
      rw [List.dropWhile_cons, hhead]
      simp
    refine ⟨hdrop, ?_⟩
    rcases hr : (c :: rest).reverse with _ | ⟨d, r⟩
    · simp at hr
    · have hlast : isGoSpace d = false := by
        by_contra hd
        rw [Bool.not_eq_false] at hd
        have htrim : goTrimSpaceList (c :: rest) =
            (r.dropWhile isGoSpace).reverse := by
          unfold goTrimSpaceList
          rw [hdrop, hr, List.dropWhile_cons, hd]
          simp
        have hlen : (goTrimSpaceList (c :: rest)).length ≤ r.length := by
          rw [htrim, List.length_reverse]
          exact (List.dropWhile_sublist isGoSpace).length_le
        rw [h] at hlen
        have : (c :: rest).length = (d :: r).length := by rw [← hr, List.length_reverse]
        simp only [List.length_cons] at this hlen
        omega
      rw [List.dropWhile_cons, hlast]
      simp

theorem goTrimSpaceList_sandwich {w1 v w2 : List Char}
    (h1 : ∀ a ∈ w1, isGoSpace a = true) (h2 : ∀ a ∈ w2, isGoSpace a = true)
    (hv : goTrimSpaceList v = v) : goTrimSpaceList (w1 ++ v ++ w2) = v := by
  obtain ⟨hd, hrd⟩ := dropWhile_eq_self_of_trim hv
  cases v with
  | nil =>
    unfold goTrimSpaceList
    rw [List.append_nil, dropWhile_of_all_append _ h1, dropWhile_nil_of_all h2]
    rfl
  | cons c rest =>
    have hc : isGoSpace c = false := not_space_head_of_dropWhile_self hd
    unfold goTrimSpaceList
    rw [List.append_assoc, dropWhile_of_all_append _ h1]
    rw [show (c :: rest) ++ w2 = c :: (rest ++ w2) from rfl]
    rw [List.dropWhile_cons, hc]
    simp only [Bool.false_eq_true, if_false]
    rw [show c :: (rest ++ w2) = (c :: rest) ++ w2 from rfl]
    rw [List.reverse_append, dropWhile_of_all_append _ (by
      intro a ha
      exact h2 a (List.mem_reverse.mp ha))]
    rw [hrd, List.reverse_reverse]

/-! ## Claim C10 — whitespace-insensitive marker comparison -/

/-- C10 (as stated) is false at a resolved version that itself carries
surrounding whitespace: the marker `" a "` differs from the resolved
version `" a"` only by surrounding whitespace, yet trimming the marker
yields `"a"` and the comparison reports a change. -/
theorem claim_C10_counterexample :
    isAllSpace "" = true ∧ isAllSpace " " = true ∧
    ("" ++ " a" ++ " " : String) = " a " ∧
    versionChanged " a" (some ("" ++ " a" ++ " ")) = true := by
  refine ⟨by decide, by decide, by decide, by decide⟩

/-- C10 (amended): the marker is compared after trimming surrounding
whitespace, so for every resolved version that itself carries no leading
or trailing whitespace, a marker whose content is that version surrounded
by whitespace compares as NoChange and the iteration performs no pull,
apply or marker write. -/
theorem claim_C10_theorem :
    ∀ (v w1 w2 : String) (pull : String → String → Except String Unit)
      (applyM : String → Except String Unit) (writeOk : Bool),
      isAllSpace w1 = true → isAllSpace w2 = true → goTrimSpace v = v →
      versionChanged v (some (w1 ++ v ++ w2)) = false ∧
      watchBody v pull applyM writeOk (some (w1 ++ v ++ w2)) =
        { result := .ok (), marker := some (w1 ++ v ++ w2),
          pullCalls := [], applyCalls := [], writeCalls := [] } := by
  intro v w1 w2 pull applyM writeOk h1 h2 hv
  have hvl : goTrimSpaceList v.data = v.data := congrArg String.data hv
  have h1l : ∀ a ∈ w1.data, isGoSpace a = true := by
    intro a ha
    exact List.all_eq_true.mp h1 a ha
  have h2l : ∀ a ∈ w2.data, isGoSpace a = true := by
    intro a ha
    exact List.all_eq_true.mp h2 a ha
  have hprev : readPrevTag (some (w1 ++ v ++ w2)) = v := by
    show goTrimSpace (w1 ++ v ++ w2) = v
    unfold goTrimSpace
    have : (w1 ++ v ++ w2).toList = w1.data ++ v.data ++ w2.data := by
      show (w1 ++ v ++ w2).data = _
      rw [String.data_append, String.data_append]
    rw [this, goTrimSpaceList_sandwich h1l h2l hvl]
  have hch : versionChanged v (some (w1 ++ v ++ w2)) = false := by
    unfold versionChanged
    rw [hprev]
    exact bne_self_eq_false v
  refine ⟨hch, ?_⟩
  unfold watchBody
  rw [hch]
  simp

/-- C10 witness: a marker holding the version followed by a newline
compares as unchanged for the version `"v1.2.0"`. -/
theorem claim_C10_witness :
    versionChanged "v1.2.0" (some ("" ++ "v1.2.0" ++ "\n")) = false :=
  ( claim_C10_theorem "v1.2.0" "" "\n" (fun _ _ => .ok ()) (fun _ => .ok ())
    true (by decide) (by decide) (by decide)).1

/-! ## Case analysis of one iteration, for claim C1 -/

theorem watchBody_cases (latest : String)
    (pull : String → String → Except String Unit)
    (applyM : String → Except String Unit) (writeOk : Bool)
    (marker : Option String) :
    (versionChanged latest marker = false ∧
      watchBody latest pull applyM writeOk marker =
        ⟨.ok (), marker, [], [], []⟩) ∨
    (versionChanged latest marker = true ∧
      ∃ e, pull latest ("/tmp/image-" ++ sanitizePath latest) = .error e ∧
        watchBody latest pull applyM writeOk marker =
          ⟨.error ("pull failed: " ++ e), marker,
            [(latest, "/tmp/image-" ++ sanitizePath latest)], [], []⟩) ∨
    (versionChanged latest marker = true ∧
      pull latest ("/tmp/image-" ++ sanitizePath latest) = .ok () ∧
      ∃ e, applyM ("/tmp/image-" ++ sanitizePath latest) = .error e ∧
        watchBody latest pull applyM writeOk marker =
          ⟨.error ("apply manifests failed: " ++ e), marker,
            [(latest, "/tmp/image-" ++ sanitizePath latest)],
            ["/tmp/image-" ++ sanitizePath latest], []⟩) ∨
    (versionChanged latest marker = true ∧
      pull latest ("/tmp/image-" ++ sanitizePath latest) = .ok () ∧
      applyM ("/tmp/image-" ++ sanitizePath latest) = .ok () ∧
      ((writeOk = true ∧
          watchBody latest pull applyM writeOk marker =
            ⟨.ok (), some latest,
              [(latest, "/tmp/image-" ++ sanitizePath latest)],
              ["/tmp/image-" ++ sanitizePath latest], [latest]⟩) ∨
        (writeOk = false ∧
          watchBody latest pull applyM writeOk marker =
            ⟨.error "failed to write last file", marker,
              [(latest, "/tmp/image-" ++ sanitizePath latest)],
              ["/tmp/image-" ++ sanitizePath latest], [latest]⟩))) := by
  cases hvc : versionChanged latest marker
  · left
    refine ⟨rfl, ?_⟩
    unfold watchBody
    rw [hvc]
    simp
  · rcases hp : pull latest ("/tmp/image-" ++ sanitizePath latest) with e | u
    · right; left
      refine ⟨rfl, e, rfl, ?_⟩
      unfold watchBody
      rw [hvc]
      simp [hp]
    · rcases ha : applyM ("/tmp/image-" ++ sanitizePath latest) with e | u2
      · right; right; left
        refine ⟨rfl, rfl, e, rfl, ?_⟩
        unfold watchBody
        rw [hvc]
        simp [hp, ha]
      · right; right; right
        refine ⟨rfl, rfl, rfl, ?_⟩
        cases writeOk
        · right
          refine ⟨rfl, ?_⟩
          unfold watchBody
          rw [hvc]
          simp [hp, ha]
        · left
          refine ⟨rfl, ?_⟩
          unfold watchBody
          rw [hvc]
          simp [hp, ha]

/-! ## Claim C1 — marker write discipline of one iteration -/

/-- C1: in every iteration the marker is written at most once, and a
write happens only after the pull step and the apply step both returned
success; a failure of version resolution, of the pull or of the apply
makes the iteration return an error, leaves the marker unchanged and
performs no write. -/
theorem claim_C1_theorem :
    ∀ (provider imageBase : String) (resolveGH : Except String String)
      (pull : String → String → Except String Unit)
      (applyM : String → Except String Unit) (writeOk : Bool)
      (marker : Option String) (t : IterTrace),
      watchLoop provider imageBase resolveGH pull applyM writeOk marker = t →
      t.writeCalls.length ≤ 1 ∧
      (t.writeCalls ≠ [] →
        ∃ v d, t.pullCalls = [(v, d)] ∧ pull v d = .ok () ∧
          t.applyCalls = [d] ∧ applyM d = .ok ()) ∧
      (∀ e, provider = "github" → resolveGH = .error e →
        t.result = .error ("could not determine latest tag/digest: " ++ e) ∧
        t.marker = marker ∧ t.writeCalls = []) ∧
      (∀ e, provider ≠ "github" → artifactoryResolve imageBase = .error e →
        t.result = .error e ∧ t.marker = marker ∧ t.writeCalls = []) ∧
      (∀ v d e, t.pullCalls = [(v, d)] → pull v d = .error e →
        t.result = .error ("pull failed: " ++ e) ∧ t.marker = marker ∧
        t.writeCalls = []) ∧
      (∀ d e, t.applyCalls = [d] → applyM d = .error e →
        t.result = .error ("apply manifests failed: " ++ e) ∧ t.marker = marker ∧
        t.writeCalls = []) := by
  intro provider imageBase resolveGH pull applyM writeOk marker t ht
  subst ht
  by_cases hprov : provider = "github"
  · cases hres : resolveGH with
    | error e =>
      have ht : watchLoop provider imageBase (.error e) pull applyM writeOk marker =
          ⟨.error ("could not determine latest tag/digest: " ++ e), marker,
            [], [], []⟩ := by
        unfold watchLoop
        rw [if_pos hprov]
      refine ⟨by simp [ht], by simp [ht], ?_, ?_, by simp [ht], by simp [ht]⟩
      · intro e' _ heq
        injection heq with he
        subst he
        simp [ht]
      · intro e' hne _
        exact absurd hprov hne
    | ok latest =>
      by_cases hemp : latest = ""
      · subst hemp
        have ht : watchLoop provider imageBase (.ok "") pull applyM writeOk marker =
            ⟨.ok (), marker, [], [], []⟩ := by
          unfold watchLoop
          rw [if_pos hprov]
          simp
        refine ⟨by simp [ht], by simp [ht], ?_, ?_, by simp [ht], by simp [ht]⟩
        · intro e' _ heq
          exact absurd heq (by simp)
        · intro e' hne _
          exact absurd hprov hne
      · have ht : watchLoop provider imageBase (.ok latest) pull applyM writeOk marker =
            watchBody latest pull applyM writeOk marker := by
          unfold watchLoop
          rw [if_pos hprov]
          dsimp only
          rw [if_neg hemp]
        rcases watchBody_cases latest pull applyM writeOk marker with
          ⟨hvc, hb⟩ | ⟨hvc, e, hp, hb⟩ | ⟨hvc, hpok, e, ha, hb⟩ |
          ⟨hvc, hpok, haok, ⟨hw, hb⟩ | ⟨hw, hb⟩⟩ <;>
          rw [hb] at ht
        · refine ⟨by simp [ht], by simp [ht], ?_, ?_, by simp [ht], by simp [ht]⟩
          · intro e' _ heq
            exact absurd heq (by simp)
          · intro e' hne _
            exact absurd hprov hne
        · refine ⟨by simp [ht], by simp [ht], ?_, ?_, ?_, by simp [ht]⟩
          · intro e' _ heq
            exact absurd heq (by simp)
          · intro e' hne _
            exact absurd hprov hne
          · intro v d e' h1 h2
            rw [ht] at h1
            simp only [IterTrace.pullCalls, List.cons.injEq, Prod.mk.injEq,
              and_true] at h1
            obtain ⟨hv, hd⟩ := h1
            subst hv
            subst hd
            rw [hp] at h2
            injection h2 with he
            subst he
            simp [ht]
        · refine ⟨by simp [ht], by simp [ht], ?_, ?_, ?_, ?_⟩
          · intro e' _ heq
            exact absurd heq (by simp)
          · intro e' hne _
            exact absurd hprov hne
          · intro v d e' h1 h2
            rw [ht] at h1
            simp only [IterTrace.pullCalls, List.cons.injEq, Prod.mk.injEq,
              and_true] at h1
            obtain ⟨hv, hd⟩ := h1
            subst hv
            subst hd
            rw [hpok] at h2
            exact absurd h2 (by simp)
          · intro d e' h1 h2
            rw [ht] at h1
            simp only [IterTrace.applyCalls, List.cons.injEq, and_true] at h1
            subst h1
            rw [ha] at h2
            injection h2 with he
            subst he
            simp [ht]
        · refine ⟨by simp [ht], ?_, ?_, ?_, ?_, ?_⟩
          · intro _
            exact ⟨latest, "/tmp/image-" ++ sanitizePath latest,
              by simp [ht], hpok, by simp [ht], haok⟩
          · intro e' _ heq
            exact absurd heq (by simp)
          · intro e' hne _
            exact absurd hprov hne
          · intro v d e' h1 h2
            rw [ht] at h1
            simp only [IterTrace.pullCalls, List.cons.injEq, Prod.mk.injEq,
              and_true] at h1
            obtain ⟨hv, hd⟩ := h1
            subst hv
            subst hd
            rw [hpok] at h2
            exact absurd h2 (by simp)
          · intro d e' h1 h2
            rw [ht] at h1
            simp only [IterTrace.applyCalls, List.cons.injEq, and_true] at h1
            subst h1
            rw [haok] at h2
            exact absurd h2 (by simp)
        · refine ⟨by simp [ht], ?_, ?_, ?_, ?_, ?_⟩
          · intro _
            exact ⟨latest, "/tmp/image-" ++ sanitizePath latest,
              by simp [ht], hpok, by simp [ht], haok⟩
          · intro e' _ heq
            exact absurd heq (by simp)
          · intro e' hne _
            exact absurd hprov hne
          · intro v d e' h1 h2
            rw [ht] at h1
            simp only [IterTrace.pullCalls, List.cons.injEq, Prod.mk.injEq,
              and_true] at h1
            obtain ⟨hv, hd⟩ := h1
            subst hv
            subst hd
            rw [hpok] at h2
            exact absurd h2 (by simp)
          · intro d e' h1 h2
            rw [ht] at h1
            simp only [IterTrace.applyCalls, List.cons.injEq, and_true] at h1
            subst h1
            rw [haok] at h2
            exact absurd h2 (by simp)
  · cases hres : artifactoryResolve imageBase with
    | error e =>
      have ht : watchLoop provider imageBase resolveGH pull applyM writeOk marker =
          ⟨.error e, marker, [], [], []⟩ := by
        unfold watchLoop
        rw [if_neg hprov, hres]
      refine ⟨by simp [ht], by simp [ht], ?_, ?_, by simp [ht], by simp [ht]⟩
      · intro e' hpg _
        exact absurd hpg hprov
      · intro e' _ heq
        injection heq with he
        subst he
        simp [ht]
    | ok latest =>
      have ht : watchLoop provider imageBase resolveGH pull applyM writeOk marker =
          watchBody latest pull applyM writeOk marker := by
        unfold watchLoop
        rw [if_neg hprov, hres]
      rcases watchBody_cases latest pull applyM writeOk marker with
        ⟨hvc, hb⟩ | ⟨hvc, e, hp, hb⟩ | ⟨hvc, hpok, e, ha, hb⟩ |
        ⟨hvc, hpok, haok, ⟨hw, hb⟩ | ⟨hw, hb⟩⟩ <;>
        rw [hb] at ht
      · refine ⟨by simp [ht], by simp [ht], ?_, ?_, by simp [ht], by simp [ht]⟩
        · intro e' hpg _
          exact absurd hpg hprov
        · intro e' _ heq
          exact absurd heq (by simp)
      · refine ⟨by simp [ht], by simp [ht], ?_, ?_, ?_, by simp [ht]⟩
        · intro e' hpg _
          exact absurd hpg hprov
        · intro e' _ heq
          exact absurd heq (by simp)
        · intro v d e' h1 h2
          rw [ht] at h1
          simp only [IterTrace.pullCalls, List.cons.injEq, Prod.mk.injEq,
            and_true] at h1
          obtain ⟨hv, hd⟩ := h1
          subst hv
          subst hd
          rw [hp] at h2
          injection h2 with he
          subst he
          simp [ht]
      · refine ⟨by simp [ht], by simp [ht], ?_, ?_, ?_, ?_⟩
        · intro e' hpg _
          exact absurd hpg hprov
        · intro e' _ heq
          exact absurd heq (by simp)
        · intro v d e' h1 h2
          rw [ht] at h1
          simp only [IterTrace.pullCalls, List.cons.injEq, Prod.mk.injEq,
            and_true] at h1
          obtain ⟨hv, hd⟩ := h1
          subst hv
          subst hd
          rw [hpok] at h2
          exact absurd h2 (by simp)
        · intro d e' h1 h2
          rw [ht] at h1
          simp only [IterTrace.applyCalls, List.cons.injEq, and_true] at h1
          subst h1
          rw [ha] at h2
          injection h2 with he
          subst he
          simp [ht]
      · refine ⟨by simp [ht], ?_, ?_, ?_, ?_, ?_⟩
        · intro _
          exact ⟨latest, "/tmp/image-" ++ sanitizePath latest,
            by simp [ht], hpok, by simp [ht], haok⟩
        · intro e' hpg _
          exact absurd hpg hprov
        · intro e' _ heq
          exact absurd heq (by simp)
        · intro v d e' h1 h2
          rw [ht] at h1
          simp only [IterTrace.pullCalls, List.cons.injEq, Prod.mk.injEq,
            and_true] at h1
          obtain ⟨hv, hd⟩ := h1
          subst hv
          subst hd
          rw [hpok] at h2
          exact absurd h2 (by simp)
        · intro d e' h1 h2
          rw [ht] at h1
          simp only [IterTrace.applyCalls, List.cons.injEq, and_true] at h1
          subst h1
          rw [haok] at h2
          exact absurd h2 (by simp)
      · refine ⟨by simp [ht], ?_, ?_, ?_, ?_, ?_⟩
        · intro _
          exact ⟨latest, "/tmp/image-" ++ sanitizePath latest,
            by simp [ht], hpok, by simp [ht], haok⟩
        · intro e' hpg _
          exact absurd hpg hprov
        · intro e' _ heq
          exact absurd heq (by simp)
        · intro v d e' h1 h2
          rw [ht] at h1
          simp only [IterTrace.pullCalls, List.cons.injEq, Prod.mk.injEq,
            and_true] at h1
          obtain ⟨hv, hd⟩ := h1
          subst hv
          subst hd
          rw [hpok] at h2
          exact absurd h2 (by simp)
        · intro d e' h1 h2
          rw [ht] at h1
          simp only [IterTrace.applyCalls, List.cons.injEq, and_true] at h1
          subst h1
          rw [haok] at h2
          exact absurd h2 (by simp)

/-- C1 witness: an iteration whose pull fails returns an error, leaves
the absent marker absent and performs no write. -/
theorem claim_C1_witness :
    (watchLoop "github" "ghcr.io/o/p" (.ok "v1") (fun _ _ => .error "boom")
        (fun _ => .ok ()) true none).result = .error ("pull failed: " ++ "boom") ∧
    (watchLoop "github" "ghcr.io/o/p" (.ok "v1") (fun _ _ => .error "boom")
        (fun _ => .ok ()) true none).marker = none ∧
    (watchLoop "github" "ghcr.io/o/p" (.ok "v1") (fun _ _ => .error "boom")
        (fun _ => .ok ()) true none).writeCalls = [] :=
  ( claim_C1_theorem "github" "ghcr.io/o/p" (.ok "v1") (fun _ _ => .error "boom")
    (fun _ => .ok ()) true none
    (watchLoop "github" "ghcr.io/o/p" (.ok "v1") (fun _ _ => .error "boom")
      (fun _ => .ok ()) true none)
    rfl).2.2.2.2.1 "v1" "/tmp/image-v1" "boom" (by rfl) (by rfl)

/-! ## Selection lemmas for claim C3 -/

theorem find_congr {α : Type} {p q : α → Bool} :
    ∀ {l : List α}, (∀ x ∈ l, p x = q x) → l.find? p = l.find? q := by
  intro l h
  induction l with
  | nil => rfl
  | cons a l ih =>
    rw [List.find?_cons, List.find?_cons, h a (by simp)]
    cases q a
    · exact ih fun x hx => h x (by simp [hx])
    · rfl

theorem find_cons_dup {α : Type} (p : α → Bool) (a : α) (l : List α) :
    (a :: a :: l).find? p = (a :: l).find? p := by
  simp only [List.find?_cons]
  cases hp : p a <;> rfl

/-- The `for` loop of src/main.go lines 327-332 computes exactly the
first entry carrying the maximum update timestamp. -/
theorem foldl_latest_eq_find (l : List GitHubPackageVersion) :
    ∀ a : GitHubPackageVersion,
      some (l.foldl
        (fun latest v => if latest.updatedAt < v.updatedAt then v else latest) a) =
      (a :: l).find?
        (fun v => (a :: l).all fun w => decide (w.updatedAt ≤ v.updatedAt)) := by
  induction l with
  | nil =>
    intro a
    simp [List.find?]
  | cons b l' ih =>
    intro a
    rw [List.foldl_cons]
    by_cases hab : a.updatedAt < b.updatedAt
    · rw [if_pos hab, ih b]
      have hPa : ((a :: b :: l').all
          fun w => decide (w.updatedAt ≤ a.updatedAt)) = false := by
        have : ¬ (b.updatedAt ≤ a.updatedAt) := by omega
        simp [List.all_cons, this]
      rw [show ((a :: b :: l').find?
            (fun v => (a :: b :: l').all fun w => decide (w.updatedAt ≤ v.updatedAt))) =
          ((b :: l').find?
            (fun v => (a :: b :: l').all fun w => decide (w.updatedAt ≤ v.updatedAt)))
        from by rw [List.find?_cons, hPa]]
      apply find_congr
      intro x hx
      conv_rhs => rw [List.all_cons]
      cases hq : ((b :: l').all fun w => decide (w.updatedAt ≤ x.updatedAt))
      · rw [Bool.and_false]
      · have hbx : b.updatedAt ≤ x.updatedAt := by
          have := List.all_eq_true.mp hq b (by simp)
          simpa using this
        have hax : a.updatedAt ≤ x.updatedAt := by omega
        rw [Bool.and_true]
        exact (decide_eq_true hax).symm
    · rw [if_neg hab, ih a]
      have hba : b.updatedAt ≤ a.updatedAt := by omega
      have hpw : ∀ x : GitHubPackageVersion,
          ((a :: b :: l').all fun w => decide (w.updatedAt ≤ x.updatedAt)) =
          ((a :: l').all fun w => decide (w.updatedAt ≤ x.updatedAt)) := by
        intro x
        rw [List.all_cons, List.all_cons, List.all_cons]
        by_cases hax : a.updatedAt ≤ x.updatedAt
        · have hbx : b.updatedAt ≤ x.updatedAt := by omega
          simp [hax, hbx]
        · simp [hax]
      rw [List.find?_cons, List.find?_cons, hpw a]
      cases hPa : ((a :: l').all fun w => decide (w.updatedAt ≤ a.updatedAt))
      · have hPb : ((a :: b :: l').all
            fun w => decide (w.updatedAt ≤ b.updatedAt)) = false := by
          cases hPb : ((a :: b :: l').all
              fun w => decide (w.updatedAt ≤ b.updatedAt))
          · rfl
          · exfalso
            have hall := List.all_eq_true.mp hPb
            have : ((a :: l').all fun w => decide (w.updatedAt ≤ a.updatedAt)) = true := by
              rw [List.all_eq_true]
              intro w hw
              have hwb : w.updatedAt ≤ b.updatedAt := by
                have := hall w (by
                  rcases List.mem_cons.mp hw with h | h
                  · simp [h]
                  · simp [List.mem_cons_of_mem, h])
                simpa using this
              simp only [decide_eq_true_eq]
              omega
            rw [hPa] at this
            exact Bool.false_ne_true this
        rw [List.find?_cons, hPb]
        apply find_congr
        intro x _
        exact (hpw x).symm
      · rfl

/-! ## Claim C3 — selection of the latest version -/

/-- C3: for a non-empty decoded version list the resolver selects the
first entry in original order carrying the maximum update timestamp
(ties keep the earlier entry), and returns that entry's first tag when
it has one, else the synthesized `version-id-<id>` string. -/
theorem claim_C3_theorem :
    ∀ versions : List GitHubPackageVersion, versions ≠ [] →
      ∃ sel, specSelectLatest versions = some sel ∧
        selectLatest versions = some sel ∧
        getLatestTagOrDigest versions =
          (match sel.tags with
           | t :: _ => t
           | [] => "version-id-" ++ toString sel.id) := by
  intro versions hne
  cases versions with
  | nil => exact absurd rfl hne
  | cons v0 rest =>
    refine ⟨(v0 :: rest).foldl
      (fun latest v => if latest.updatedAt < v.updatedAt then v else latest) v0,
      ?_, ?_, ?_⟩
    · have h := foldl_latest_eq_find (v0 :: rest) v0
      rw [find_cons_dup] at h
      unfold specSelectLatest
      have hcongr : ((v0 :: rest).find?
            (fun v => (v0 :: rest).all fun w => decide (w.updatedAt ≤ v.updatedAt))) =
          ((v0 :: rest).find?
            (fun v => (v0 :: v0 :: rest).all fun w => decide (w.updatedAt ≤ v.updatedAt))) := by
        apply find_congr
        intro x _
        rw [List.all_cons, List.all_cons, List.all_cons]
        cases hd : decide (v0.updatedAt ≤ x.updatedAt) <;> simp
      rw [hcongr]
      exact h.symm
    · rfl
    · unfold getLatestTagOrDigest selectLatest
      rfl

/-- C3 witness: with a timestamp tie the first entry wins, and having no
tags it resolves to the synthesized version id. -/
theorem claim_C3_witness :
    specSelectLatest [⟨5, 10, []⟩, ⟨6, 10, ["v2"]⟩] = some ⟨5, 10, []⟩ ∧
    getLatestTagOrDigest [⟨5, 10, []⟩, ⟨6, 10, ["v2"]⟩] = "version-id-5" := by
  obtain ⟨sel, h1, h2, h3⟩ :=
    claim_C3_theorem [⟨5, 10, []⟩, ⟨6, 10, ["v2"]⟩] (by simp)
  have he : sel = ⟨5, 10, []⟩ := by
    have hv : specSelectLatest [⟨5, 10, []⟩, ⟨6, 10, ["v2"]⟩] =
        some ⟨5, 10, []⟩ := by decide
    rw [hv] at h1
    exact (Option.some.inj h1).symm
  subst he
  refine ⟨by decide, ?_⟩
  rw [h3]
  rfl

/-! ## Label-map lemmas (`insertKV`, `buildLabels`) -/

theorem any_false_forall {α : Type} {f : α → Bool} {l : List α}
    (h : l.any f = false) : ∀ x ∈ l, f x = false := by
  intro x hx
  cases hfx : f x
  · rfl
  · exact absurd (List.any_eq_true.mpr ⟨x, hx, hfx⟩) (by simp [h])

theorem anyKey_eq_true_iff {m : List (String × String)} {k : String} :
    (m.any fun p => p.1 = k) = true ↔ k ∈ m.map Prod.fst := by
  rw [List.any_eq_true]
  constructor
  · rintro ⟨p, hp, hk⟩
    rw [List.mem_map]
    exact ⟨p, hp, by simpa using hk⟩
  · intro hk
    rcases List.mem_map.mp hk with ⟨p, hp, hk⟩
    exact ⟨p, hp, by simpa using hk⟩

theorem insertKV_of_not_mem {m : List (String × String)} {k : String} (v : String)
    (h : k ∉ m.map Prod.fst) : insertKV m k v = m ++ [(k, v)] := by
  unfold insertKV
  rw [if_neg]
  intro hc
  exact h (anyKey_eq_true_iff.mp hc)

theorem insertKV_of_mem {m : List (String × String)} {k : String} (v : String)
    (h : k ∈ m.map Prod.fst) :
    insertKV m k v = m.map fun p => if p.1 = k then (k, v) else p := by
  unfold insertKV
  rw [if_pos (anyKey_eq_true_iff.mpr h)]

theorem map_fst_overwrite (m : List (String × String)) (k v : String) :
    (m.map fun p => if p.1 = k then (k, v) else p).map Prod.fst = m.map Prod.fst := by
  rw [List.map_map]
  apply List.map_congr_left
  intro p _
  by_cases hp : p.1 = k
  · simp [hp]
  · simp [hp]

theorem map_fst_insertKV_of_mem {m : List (String × String)} {k : String} (v : String)
    (h : k ∈ m.map Prod.fst) :
    (insertKV m k v).map Prod.fst = m.map Prod.fst := by
  rw [insertKV_of_mem v h, map_fst_overwrite]

theorem map_fst_insertKV_of_not_mem {m : List (String × String)} {k : String}
    (v : String) (h : k ∉ m.map Prod.fst) :
    (insertKV m k v).map Prod.fst = m.map Prod.fst ++ [k] := by
  rw [insertKV_of_not_mem v h]
  simp

theorem nodup_insertKV {m : List (String × String)} (k v : String)
    (h : (m.map Prod.fst).Nodup) : ((insertKV m k v).map Prod.fst).Nodup := by
  by_cases hk : k ∈ m.map Prod.fst
  · rw [map_fst_insertKV_of_mem v hk]
    exact h
  · rw [map_fst_insertKV_of_not_mem v hk]
    simp [List.nodup_append, h, hk]

theorem mem_keys_insertKV (m : List (String × String)) (k v : String) :
    k ∈ (insertKV m k v).map Prod.fst := by
  by_cases hk : k ∈ m.map Prod.fst
  · rw [map_fst_insertKV_of_mem v hk]
    exact hk
  · rw [map_fst_insertKV_of_not_mem v hk]
    simp

theorem mem_keys_insertKV_of_mem {m : List (String × String)} {k' : String}
    (k v : String) (h : k' ∈ m.map Prod.fst) :
    k' ∈ (insertKV m k v).map Prod.fst := by
  by_cases hk : k ∈ m.map Prod.fst
  · rw [map_fst_insertKV_of_mem v hk]
    exact h
  · rw [map_fst_insertKV_of_not_mem v hk]
    simp [h]

theorem insertKV_entry_val {m : List (String × String)} {k v : String} :
    ∀ p ∈ insertKV m k v, p.1 = k → p.2 = v := by
  intro p hp hpk
  by_cases hk : k ∈ m.map Prod.fst
  · rw [insertKV_of_mem v hk] at hp
    rcases List.mem_map.mp hp with ⟨q, hq, hfq⟩
    by_cases hqk : q.1 = k
    · rw [if_pos hqk] at hfq
      rw [← hfq]
    · rw [if_neg hqk] at hfq
      rw [← hfq] at hpk
      exact absurd hpk hqk
  · rw [insertKV_of_not_mem v hk] at hp
    rcases List.mem_append.mp hp with hp | hp
    · exact absurd (hpk ▸ (List.mem_map.mpr ⟨p, hp, rfl⟩)) hk
    · simp only [List.mem_singleton] at hp
      rw [hp]

theorem insertKV_mem_of_ne {m : List (String × String)} {k v : String}
    {p : String × String} (hp : p ∈ insertKV m k v) (hne : p.1 ≠ k) : p ∈ m := by
  by_cases hk : k ∈ m.map Prod.fst
  · rw [insertKV_of_mem v hk] at hp
    rcases List.mem_map.mp hp with ⟨q, hq, hfq⟩
    by_cases hqk : q.1 = k
    · rw [if_pos hqk] at hfq
      rw [← hfq] at hne
      exact absurd rfl hne
    · rw [if_neg hqk] at hfq
      rw [← hfq]
      exact hq
  · rw [insertKV_of_not_mem v hk] at hp
    rcases List.mem_append.mp hp with hp | hp
    · exact hp
    · simp only [List.mem_singleton] at hp
      rw [hp] at hne
      exact absurd rfl hne

theorem insertKV_id {m : List (String × String)} {k v : String}
    (hmem : k ∈ m.map Prod.fst) (hval : ∀ p ∈ m, p.1 = k → p.2 = v) :
    insertKV m k v = m := by
  rw [insertKV_of_mem v hmem]
  have : ∀ p ∈ m, (if p.1 = k then (k, v) else p) = p := by
    intro p hp
    by_cases hpk : p.1 = k
    · rw [if_pos hpk]
      have h2 := hval p hp hpk
      cases p with
      | mk a b =>
        simp only at hpk h2
        rw [hpk, h2]
    · rw [if_neg hpk]
  rw [List.map_congr_left this]
  simp

theorem insertKV_ne_nil (m : List (String × String)) (k v : String) :
    insertKV m k v ≠ [] := by
  by_cases hk : k ∈ m.map Prod.fst
  · rw [insertKV_of_mem v hk]
    intro hc
    rw [List.map_eq_nil_iff] at hc
    subst hc
    simp at hk
  · rw [insertKV_of_not_mem v hk]
    simp

theorem find?_overwrite_ne (k v k' : String) (hne : k' ≠ k) :
    ∀ m : List (String × String),
      (m.map fun p => if p.1 = k then (k, v) else p).find? (fun p => p.1 == k') =
        m.find? (fun p => p.1 == k') := by
  intro m
  induction m with
  | nil => rfl
  | cons q rest ih =>
    rw [List.map_cons, List.find?_cons, List.find?_cons]
    by_cases hqk : q.1 = k
    · rw [if_pos hqk]
      have h1 : ((k, v).1 == k') = false := by simp [Ne.symm hne]
      have h2 : (q.1 == k') = false := by
        rw [hqk]
        simp [Ne.symm hne]
      rw [h1, h2]
      exact ih
    · rw [if_neg hqk]
      cases hq : (q.1 == k')
      · exact ih
      · rfl

theorem find?_overwrite_self (k v : String) :
    ∀ m : List (String × String), k ∈ m.map Prod.fst →
      (m.map fun p => if p.1 = k then (k, v) else p).find? (fun p => p.1 == k) =
        some (k, v) := by
  intro m
  induction m with
  | nil => simp
  | cons q rest ih =>
    intro hk
    rw [List.map_cons, List.find?_cons]
    by_cases hqk : q.1 = k
    · rw [if_pos hqk]
      have : ((k, v).1 == k) = true := by simp
      rw [this]
    · rw [if_neg hqk]
      have : (q.1 == k) = false := by simp [hqk]
      rw [this]
      have hrest : k ∈ rest.map Prod.fst := by
        rcases List.mem_map.mp hk with ⟨r, hr, hrk⟩
        rcases List.mem_cons.mp hr with hr | hr
        · rw [hr] at hrk
          exact absurd hrk hqk
        · exact List.mem_map.mpr ⟨r, hr, hrk⟩
      exact ih hrest

theorem lookupLabel_insertKV_self (m : List (String × String)) (k v : String) :
    lookupLabel (insertKV m k v) k = some v := by
  by_cases hk : k ∈ m.map Prod.fst
  · rw [insertKV_of_mem v hk]
    unfold lookupLabel
    rw [find?_overwrite_self k v m hk]
    rfl
  · rw [insertKV_of_not_mem v hk]
    unfold lookupLabel
    rw [List.find?_append]
    have hnone : m.find? (fun p => p.1 == k) = none := by
      rw [List.find?_eq_none]
      intro p hp hc
      simp only [beq_iff_eq] at hc
      exact hk (List.mem_map.mpr ⟨p, hp, hc⟩)
    rw [hnone]
    simp

theorem lookupLabel_insertKV_ne (m : List (String × String)) (k v k' : String)
    (hne : k' ≠ k) : lookupLabel (insertKV m k v) k' = lookupLabel m k' := by
  by_cases hk : k ∈ m.map Prod.fst
  · rw [insertKV_of_mem v hk]
    unfold lookupLabel
    rw [find?_overwrite_ne k v k' hne m]
  · rw [insertKV_of_not_mem v hk]
    unfold lookupLabel
    rw [List.find?_append]
    cases hfind : m.find? (fun p => p.1 == k')
    · have : [(k, v)].find? (fun p => p.1 == k') = none := by
        simp [Ne.symm hne]
      rw [this]
      simp
    · simp

theorem buildLabels_str_append :
    ∀ (ls acc : List (String × String)),
      (∀ k ∈ ls.map Prod.fst, k ∉ acc.map Prod.fst) →
      (ls.map Prod.fst).Nodup →
      buildLabels (ls.map fun p => (p.1, JVal.str p.2)) acc = .ok (acc ++ ls) := by
  intro ls
  induction ls with
  | nil =>
    intro acc _ _
    simp [buildLabels]
  | cons p rest ih =>
    intro acc hdisj hnd
    obtain ⟨k0, v0⟩ := p
    rw [List.map_cons]
    show buildLabels ((k0, JVal.str v0) :: rest.map fun p => (p.1, JVal.str p.2)) acc =
      .ok (acc ++ (k0, v0) :: rest)
    rw [show buildLabels ((k0, JVal.str v0) :: rest.map fun p => (p.1, JVal.str p.2)) acc =
        buildLabels (rest.map fun p => (p.1, JVal.str p.2)) (insertKV acc k0 v0) from rfl]
    rw [insertKV_of_not_mem v0 (hdisj k0 (by simp))]
    rw [List.map_cons, List.nodup_cons] at hnd
    rw [ih (acc ++ [(k0, v0)]) ?_ hnd.2]
    · simp
    · intro k hk
      simp only [List.map_append, List.mem_append]
      rintro (hka | hk0)
      · exact hdisj k (by simp [hk]) hka
      · simp only [List.map_cons, List.map_nil] at hk0
        rw [List.mem_singleton] at hk0
        rw [hk0] at hk
        exact hnd.1 hk

theorem buildLabels_nodup :
    ∀ (lfs : List (String × JVal)) (acc out : List (String × String)),
      buildLabels lfs acc = .ok out → (acc.map Prod.fst).Nodup →
      (out.map Prod.fst).Nodup := by
  intro lfs
  induction lfs with
  | nil =>
    intro acc out h ha
    injection h with h
    rw [← h]
    exact ha
  | cons p rest ih =>
    intro acc out h ha
    obtain ⟨k, jv⟩ := p
    cases jv with
    | str v => exact ih (insertKV acc k v) out h (nodup_insertKV k v ha)
    | null => exact ih (insertKV acc k "") out h (nodup_insertKV k "" ha)
    | bool b => exact absurd h (by simp [buildLabels])
    | num n => exact absurd h (by simp [buildLabels])
    | arr xs => exact absurd h (by simp [buildLabels])
    | obj fs => exact absurd h (by simp [buildLabels])

theorem parseLabels_nodup {x : Option JVal} {ol : Option (List (String × String))}
    (h : parseLabels x = .ok ol) : ((ol.getD []).map Prod.fst).Nodup := by
  match x with
  | none =>
    injection h with h
    rw [← h]
    simp
  | some .null =>
    injection h with h
    rw [← h]
    simp
  | some (.obj lfs) =>
    unfold parseLabels at h
    dsimp only at h
    cases hb : buildLabels lfs [] with
    | error e =>
      rw [hb] at h
      exact absurd h (by simp)
    | ok ls =>
      rw [hb] at h
      injection h with h
      rw [← h]
      simpa using buildLabels_nodup lfs [] ls hb (by simp)
  | some (.bool b) => exact absurd h (by simp [parseLabels])
  | some (.num n) => exact absurd h (by simp [parseLabels])
  | some (.str s) => exact absurd h (by simp [parseLabels])
  | some (.arr xs) => exact absurd h (by simp [parseLabels])

theorem parseMetadata_labels_nodup {x : Option JVal} {md : ManifestMetadata}
    (h : parseMetadata x = .ok md) :
    ((md.labels.getD []).map Prod.fst).Nodup := by
  match x with
  | none =>
    injection h with h
    rw [← h]
    exact List.nodup_nil
  | some .null =>
    injection h with h
    rw [← h]
    exact List.nodup_nil
  | some (.obj fs) =>
    unfold parseMetadata at h
    dsimp only at h
    split at h
    · exact absurd h (by simp)
    · split at h
      · exact absurd h (by simp)
      · split at h
        · exact absurd h (by simp)
        · rename_i labels heq
          injection h with h
          rw [← h]
          exact parseLabels_nodup heq
  | some (.bool b) => exact absurd h (by simp [parseMetadata])
  | some (.num n) => exact absurd h (by simp [parseMetadata])
  | some (.str s) => exact absurd h (by simp [parseMetadata])
  | some (.arr xs) => exact absurd h (by simp [parseMetadata])

theorem parseManifest_labels_nodup {doc : JVal} {m : Manifest}
    (h : parseManifest doc = .ok m) :
    ((m.metadata.labels.getD []).map Prod.fst).Nodup := by
  match doc with
  | .null =>
    injection h with h
    rw [← h]
    exact List.nodup_nil
  | .obj fs =>
    unfold parseManifest at h
    dsimp only at h
    split at h
    · exact absurd h (by simp)
    · split at h
      · exact absurd h (by simp)
      · split at h
        · exact absurd h (by simp)
        · rename_i md heq
          split at h
          · exact absurd h (by simp)
          · injection h with h
            rw [← h]
            exact parseMetadata_labels_nodup heq
  | .bool b => exact absurd h (by simp [parseManifest])
  | .num n => exact absurd h (by simp [parseManifest])
  | .str s => exact absurd h (by simp [parseManifest])
  | .arr xs => exact absurd h (by simp [parseManifest])

/-! ## Round-trip of the annotator's serialization -/

theorem parseMetadata_serializeMetadata (nm ns : String)
    (ls : List (String × String)) (hne : ls ≠ [])
    (hnd : (ls.map Prod.fst).Nodup) :
    parseMetadata (some (serializeMetadata ⟨nm, ns, some ls⟩)) =
      .ok ⟨nm, ns, some ls⟩ := by
  have hb : buildLabels (ls.map fun p => (p.1, JVal.str p.2)) [] = .ok ls := by
    have := buildLabels_str_append ls [] (by simp) hnd
    simpa using this
  have hlse : ls.isEmpty = false := by
    simp [List.isEmpty_iff, hne]
  have hser : serializeMetadata ⟨nm, ns, some ls⟩ =
      .obj ([("name", .str nm)]
        ++ (if ns = "" then [] else [("namespace", .str ns)])
        ++ [("labels", .obj (ls.map fun p => (p.1, .str p.2)))]) := by
    unfold serializeMetadata
    dsimp only
    rw [hlse]
    simp
  rw [hser]
  by_cases hns : ns = ""
  · subst hns
    rw [if_pos rfl]
    have hpl : parseLabels (some (.obj (ls.map fun p => (p.1, JVal.str p.2)))) =
        Except.ok (some ls) := by
      show (match buildLabels (ls.map fun p => (p.1, JVal.str p.2)) [] with
            | Except.error e => Except.error e
            | Except.ok ls' => Except.ok (some ls')) = _
      rw [hb]
    show (match parseLabels (some (.obj (ls.map fun p => (p.1, JVal.str p.2)))) with
          | Except.error e => Except.error e
          | Except.ok labels => Except.ok (⟨nm, "", labels⟩ : ManifestMetadata)) = _
    rw [hpl]
  · rw [if_neg hns]
    have hpl : parseLabels (some (.obj (ls.map fun p => (p.1, JVal.str p.2)))) =
        Except.ok (some ls) := by
      show (match buildLabels (ls.map fun p => (p.1, JVal.str p.2)) [] with
            | Except.error e => Except.error e
            | Except.ok ls' => Except.ok (some ls')) = _
      rw [hb]
    show (match parseLabels (some (.obj (ls.map fun p => (p.1, JVal.str p.2)))) with
          | Except.error e => Except.error e
          | Except.ok labels => Except.ok (⟨nm, ns, labels⟩ : ManifestMetadata)) = _
    rw [hpl]

theorem parseManifest_serializeManifest (m : Manifest)
    (ls : List (String × String)) (hls : m.metadata.labels = some ls)
    (hne : ls ≠ []) (hnd : (ls.map Prod.fst).Nodup) :
    parseManifest (serializeManifest m) = .ok m := by
  obtain ⟨av, kd, md, sp⟩ := m
  obtain ⟨nm, ns, lb⟩ := md
  simp only at hls
  subst hls
  have hmd := parseMetadata_serializeMetadata nm ns ls hne hnd
  unfold serializeManifest
  dsimp only
  by_cases hsp : sp.isEmpty
  · rw [List.isEmpty_iff] at hsp
    subst hsp
    rw [show (([] : List (String × JVal)).isEmpty) = true from rfl]
    simp only [if_true, List.append_nil]
    show (match parseMetadata (some (serializeMetadata ⟨nm, ns, some ls⟩)) with
          | Except.error e => Except.error e
          | Except.ok md =>
            Except.ok (⟨av, kd, md, []⟩ : Manifest)) = _
    rw [hmd]
  · rw [show sp.isEmpty = false from by simp [List.isEmpty_iff]; simpa using hsp]
    simp only [Bool.false_eq_true, if_false]
    show (match parseMetadata (some (serializeMetadata ⟨nm, ns, some ls⟩)) with
          | Except.error e => Except.error e
          | Except.ok md =>
            match parseSpec (some (.obj sp)) with
            | Except.error e => Except.error e
            | Except.ok sp' => Except.ok (⟨av, kd, md, sp'⟩ : Manifest)) = _
    rw [hmd]
    rfl

theorem addLabels_ok {doc : JVal} {m : Manifest} (tag : String)
    (h : parseManifest doc = .ok m) :
    addLabelsToYAML doc tag = .ok (serializeManifest
      { m with metadata := { m.metadata with labels := some (insertKV (insertKV
          (m.metadata.labels.getD []) "managed-by" "kyverno-watcher")
          "policy-version" tag) } }) := by
  unfold addLabelsToYAML
  rw [h]
  dsimp only
  cases hlb : m.metadata.labels with
  | none => rfl
  | some ls => rfl

/-! ## Claim C7 — idempotence of annotation -/

/-- C7: annotation is idempotent — re-annotating an annotated document
with the same version reproduces it exactly (in particular the label
mapping is unchanged) — and annotating a document carrying labels
`app: x` with version `v2` yields exactly the labels
`app: x, managed-by: kyverno-watcher, policy-version: v2`. -/
theorem claim_C7_theorem :
    (∀ (doc : JVal) (tag : String) (out : JVal),
      addLabelsToYAML doc tag = .ok out → addLabelsToYAML out tag = .ok out) ∧
    addLabelsToYAML exampleDoc "v2" = .ok exampleAnnotated ∧
    parseManifest exampleAnnotated =
      .ok ⟨"kyverno.io/v1", "ClusterPolicy",
        ⟨"p", "", some [("app", "x"), ("managed-by", "kyverno-watcher"),
          ("policy-version", "v2")]⟩, [("rules", .arr [])]⟩ := by
  refine ⟨?_, by rfl, by rfl⟩
  intro doc tag out h
  cases hm : parseManifest doc with
  | error e =>
    unfold addLabelsToYAML at h
    rw [hm] at h
    exact absurd h (by simp)
  | ok m =>
    rw [addLabels_ok tag hm] at h
    injection h with hout
    have hnd0 : ((m.metadata.labels.getD []).map Prod.fst).Nodup :=
      parseManifest_labels_nodup hm
    have hnd2 : ((insertKV (insertKV (m.metadata.labels.getD [])
        "managed-by" "kyverno-watcher") "policy-version" tag).map Prod.fst).Nodup :=
      nodup_insertKV _ _ (nodup_insertKV _ _ hnd0)
    have hne2 : insertKV (insertKV (m.metadata.labels.getD [])
        "managed-by" "kyverno-watcher") "policy-version" tag ≠ [] :=
      insertKV_ne_nil _ _ _
    have hpo : parseManifest out = .ok
        { m with metadata := { m.metadata with labels := some (insertKV (insertKV
            (m.metadata.labels.getD []) "managed-by" "kyverno-watcher")
            "policy-version" tag) } } := by
      rw [← hout]
      exact parseManifest_serializeManifest _ _ rfl hne2 hnd2
    unfold addLabelsToYAML
    rw [hpo]
    dsimp only
    have hmb_mem : "managed-by" ∈ (insertKV (insertKV (m.metadata.labels.getD [])
        "managed-by" "kyverno-watcher") "policy-version" tag).map Prod.fst :=
      mem_keys_insertKV_of_mem _ _
        (mem_keys_insertKV (m.metadata.labels.getD []) "managed-by" "kyverno-watcher")
    have hmb_val : ∀ p ∈ insertKV (insertKV (m.metadata.labels.getD [])
        "managed-by" "kyverno-watcher") "policy-version" tag,
        p.1 = "managed-by" → p.2 = "kyverno-watcher" := by
      intro p hp hpk
      have hpne : p.1 ≠ "policy-version" := by
        rw [hpk]
        decide
      exact insertKV_entry_val p (insertKV_mem_of_ne hp hpne) hpk
    have h1 : insertKV (insertKV (insertKV (m.metadata.labels.getD [])
        "managed-by" "kyverno-watcher") "policy-version" tag)
        "managed-by" "kyverno-watcher" =
        insertKV (insertKV (m.metadata.labels.getD [])
          "managed-by" "kyverno-watcher") "policy-version" tag :=
      insertKV_id hmb_mem hmb_val
    have h2 : insertKV (insertKV (insertKV (m.metadata.labels.getD [])
        "managed-by" "kyverno-watcher") "policy-version" tag)
        "policy-version" tag =
        insertKV (insertKV (m.metadata.labels.getD [])
          "managed-by" "kyverno-watcher") "policy-version" tag :=
      insertKV_id (mem_keys_insertKV _ _ _)
        (fun p hp hpk => insertKV_entry_val p hp hpk)
    rw [h1, h2]
    exact congrArg Except.ok hout

/-- C7 witness: re-annotating the annotated example document with the
same version reproduces it unchanged. -/
theorem claim_C7_witness :
    addLabelsToYAML exampleAnnotated "v2" = .ok exampleAnnotated :=
  claim_C7_theorem.1 exampleDoc "v2" exampleAnnotated (by rfl)

/-! ## Claim C2 — round-trip preservation of the annotator -/

/-- C2 (as stated) is false: unknown keys outside
apiVersion/kind/metadata/spec are NOT preserved.  The decoder maps the
document onto the fixed `Manifest` struct, so the unknown top-level field
`extra: keepme` of `exampleDoc` is dropped from the annotated output. -/
theorem claim_C2_counterexample :
    topField exampleDoc "extra" = some (.str "keepme") ∧
    addLabelsToYAML exampleDoc "v2" = .ok exampleAnnotated ∧
    topField exampleAnnotated "extra" = none :=
  ⟨rfl, rfl, rfl⟩

/-- C2 (amended): re-annotation round-trips through the `Manifest`
struct: parsing the annotated output yields the same api-version, kind,
metadata name and namespace, and the identical opaque spec payload
(unknown keys inside it included) as the parsed input, the two injected
labels carry their injected values, and every label under any other key
is preserved; but keys outside the four modelled fields (unknown
top-level keys, and metadata keys other than name/namespace/labels) are
dropped, not preserved. -/
theorem claim_C2_theorem :
    ∀ (doc : JVal) (tag : String) (m : Manifest) (out : JVal),
      parseManifest doc = .ok m → addLabelsToYAML doc tag = .ok out →
      ∃ m' : Manifest, parseManifest out = .ok m' ∧
        m'.apiVersion = m.apiVersion ∧ m'.kind = m.kind ∧
        m'.metadata.name = m.metadata.name ∧
        m'.metadata.namespace_ = m.metadata.namespace_ ∧
        m'.spec = m.spec ∧
        ∃ ls' : List (String × String), m'.metadata.labels = some ls' ∧
          lookupLabel ls' "managed-by" = some "kyverno-watcher" ∧
          lookupLabel ls' "policy-version" = some tag ∧
          ∀ k : String, k ≠ "managed-by" → k ≠ "policy-version" →
            lookupLabel ls' k = lookupLabel (m.metadata.labels.getD []) k := by
  intro doc tag m out hm h
  rw [addLabels_ok tag hm] at h
  injection h with hout
  have hnd0 : ((m.metadata.labels.getD []).map Prod.fst).Nodup :=
    parseManifest_labels_nodup hm
  have hnd2 : ((insertKV (insertKV (m.metadata.labels.getD [])
      "managed-by" "kyverno-watcher") "policy-version" tag).map Prod.fst).Nodup :=
    nodup_insertKV _ _ (nodup_insertKV _ _ hnd0)
  have hne2 : insertKV (insertKV (m.metadata.labels.getD [])
      "managed-by" "kyverno-watcher") "policy-version" tag ≠ [] :=
    insertKV_ne_nil _ _ _
  have hpo : parseManifest out = .ok
      { m with metadata := { m.metadata with labels := some (insertKV (insertKV
          (m.metadata.labels.getD []) "managed-by" "kyverno-watcher")
          "policy-version" tag) } } := by
    rw [← hout]
    exact parseManifest_serializeManifest _ _ rfl hne2 hnd2
  refine ⟨_, hpo, rfl, rfl, rfl, rfl, rfl, _, rfl, ?_, ?_, ?_⟩
  · rw [lookupLabel_insertKV_ne _ _ _ _ (by decide)]
    exact lookupLabel_insertKV_self _ _ _
  · exact lookupLabel_insertKV_self _ _ _
  · intro k hk1 hk2
    rw [lookupLabel_insertKV_ne _ _ _ _ hk2, lookupLabel_insertKV_ne _ _ _ _ hk1]

/-- C2 witness: the example document's round trip preserves its
api-version and its `app` label. -/
theorem claim_C2_witness :
    ∃ m' : Manifest, parseManifest exampleAnnotated = .ok m' ∧
      m'.apiVersion = "kyverno.io/v1" ∧
      ∃ ls' : List (String × String), m'.metadata.labels = some ls' ∧
        lookupLabel ls' "app" = some "x" := by
  obtain ⟨m', hpo, hav, _, _, _, _, ls', hls, _, _, hother⟩ :=
    claim_C2_theorem exampleDoc "v2"
      ⟨"kyverno.io/v1", "ClusterPolicy", ⟨"p", "", some [("app", "x")]⟩,
        [("rules", .arr [])]⟩
      exampleAnnotated (by rfl) (by rfl)
  refine ⟨m', hpo, by rw [hav], ls', hls, ?_⟩
  rw [hother "app" (by decide) (by decide)]
  rfl

end KyvernoWatcher
